import Mathlib

/-!
# Raw comment extraction (`lib/AST/RawComment.cpp`)

A shallow embedding of the comment classifier, the comment merger, the range
scanner, the per-declaration resolver, the group and order accessors and the
range union of `RawComment.cpp`, followed by the theorems that settle the
specification's claims about them.

Conventions of the embedding.

* A `StringRef` is the list of its `char`s; only its length and comparisons of
  single elements with `'/'`, `'*'`, `' '` and `'#'` are ever used.
* A failed `assert` aborts the computation: fallible functions return `Option`,
  with `none` standing for the abort.
* `SmallVector` buffers are lists, `push_back` appends at the end, `back()` is
  the last element.
* A dereferenced null pointer aborts the computation as a failed assertion does.
* Line numbers are `unsigned`: a line field holds a natural number, and the sum
  `EndLine + 1` of the merger is reduced modulo `2 ^ 32`, as C++ unsigned
  arithmetic does.  The sum wraps only at `EndLine = 4294967295`; statements
  that compare lines as natural numbers carry the bound `EndLine + 1 < 2 ^ 32`.
-/

namespace swift

/-! ## Data model -/

/-- A `StringRef`: the sequence of `char`s of a piece of source text. -/
abbrev StringRef := List Char

/-- The four comment kinds, `SingleRawComment::CommentKind`. -/
inductive CommentKind where
  | OrdinaryLine
  | OrdinaryBlock
  | LineDoc
  | BlockDoc
  deriving DecidableEq, Repr

/-- Modelled from the spec: `SourceLoc` is declared in a header that is not among
the sources.  A source position is an opaque pointer value; the null pointer
(`0`) is the invalid position. -/
structure SourceLoc where
  Value : Nat
  deriving DecidableEq, Repr

/-- The position is valid when its pointer is not null. -/
def SourceLoc.isValid (L : SourceLoc) : Bool := L.Value != 0

/-- The position is invalid when its pointer is null. -/
def SourceLoc.isInvalid (L : SourceLoc) : Bool := !L.isValid

/-- Modelled from the spec: `CharSourceRange` is declared in a header that is not
among the sources.  A character range is a start position and a byte length; it
is valid when its start position is. -/
structure CharSourceRange where
  Start : SourceLoc
  ByteLength : Nat
  deriving DecidableEq, Repr

/-- The default-constructed, invalid range `CharSourceRange()`. -/
def CharSourceRange.invalid : CharSourceRange := ⟨⟨0⟩, 0⟩

/-- Start position of the range. -/
def CharSourceRange.getStart (R : CharSourceRange) : SourceLoc := R.Start

/-- One-past-the-end position of the range. -/
def CharSourceRange.getEnd (R : CharSourceRange) : SourceLoc :=
  ⟨R.Start.Value + R.ByteLength⟩

/-- A range is valid when its start position is valid. -/
def CharSourceRange.isValid (R : CharSourceRange) : Bool := R.Start.isValid

/-- A range is invalid when its start position is invalid. -/
def CharSourceRange.isInvalid (R : CharSourceRange) : Bool := !R.isValid

/-- Modelled from the spec: the source manager is an external collaborator
(`extractText(range)`, `lineAndColumn(position)`, `findBuffer(position)`,
`offsetInBuffer(position, bufferId)`); its operations are taken as given
functions. -/
structure SourceManager where
  extractText : CharSourceRange → StringRef
  getLineAndColumnInBuffer : SourceLoc → Nat × Nat
  findBufferContainingLoc : SourceLoc → Nat
  getLocOffsetInBuffer : SourceLoc → Nat → Nat

/-- A single physical comment, `SingleRawComment`. -/
structure SingleRawComment where
  Range : CharSourceRange
  RawText : StringRef
  Kind : CommentKind
  StartColumn : Nat
  StartLine : Nat
  EndLine : Nat
  deriving DecidableEq, Repr

/-- Modelled from the spec: `isOrdinary` is defined in `RawComment.h`, which is
not among the sources.  An ordinary comment is any comment not classified as
documentation. -/
def SingleRawComment.isOrdinary (SRC : SingleRawComment) : Bool :=
  SRC.Kind == CommentKind.OrdinaryLine || SRC.Kind == CommentKind.OrdinaryBlock

/-- The public result `RawComment`: the kept comments in source order. -/
structure RawComment where
  Comments : List SingleRawComment
  deriving DecidableEq, Repr

/-- The default-constructed result `RawComment()`: no documentation. -/
def RawComment.empty : RawComment := ⟨[]⟩

/-- The group is empty when it holds no comment. -/
def RawComment.isEmpty (RC : RawComment) : Bool := RC.Comments.isEmpty

/-! ## Comment classifier -/

/-- The classifier `getCommentKind` (lines 38-58).  `none` is a failed
assertion. -/
def getCommentKind (Comment : StringRef) : Option CommentKind :=
  if Comment.length < 2 then none
  else if Comment[0]? ≠ some '/' then none
  else if Comment[1]? = some '/' then
    if Comment.length < 3 then some CommentKind.OrdinaryLine
    else if Comment[2]? = some '/' then some CommentKind.LineDoc
    else some CommentKind.OrdinaryLine
  else
    if Comment[1]? ≠ some '*' then none
    else if Comment.length < 4 then none
    else if Comment[2]? = some '*' then some CommentKind.BlockDoc
    else some CommentKind.OrdinaryBlock

/-- The constructor `SingleRawComment(CharSourceRange, const SourceManager &)`
(lines 60-69). -/
def SingleRawComment.ofRange (Range : CharSourceRange) (SourceMgr : SourceManager) :
    Option SingleRawComment :=
  match getCommentKind (SourceMgr.extractText Range) with
  | none => none
  | some K =>
    some { Range := Range
           RawText := SourceMgr.extractText Range
           Kind := K
           StartColumn := (SourceMgr.getLineAndColumnInBuffer Range.getStart).2
           StartLine := (SourceMgr.getLineAndColumnInBuffer Range.getStart).1
           EndLine := (SourceMgr.getLineAndColumnInBuffer Range.getEnd).1 }

/-- The constructor `SingleRawComment(StringRef, unsigned)` (lines 71-73). -/
def SingleRawComment.ofText (RawText : StringRef) (StartColumn : Nat) :
    Option SingleRawComment :=
  match getCommentKind RawText with
  | none => none
  | some K =>
    some { Range := CharSourceRange.invalid
           RawText := RawText
           Kind := K
           StartColumn := StartColumn
           StartLine := 0
           EndLine := 0 }

/-! ## Comment merger -/

/-- The text of a generated-source line marker starts with `// ###`. -/
def gybMarker : StringRef := ['/', '/', ' ', '#', '#', '#']

/-- Prefix test `StringRef::startswith`: the text is at least as long as the
prefix and its first characters are those of the prefix. -/
def startswith (Text Pre : StringRef) : Bool :=
  decide (Pre.length ≤ Text.length) && (Text.take Pre.length == Pre)

/-- One merger step `addCommentToList` (lines 75-104): the buffer after the
comment `SRC` has been offered to the buffer `Comments`.  The sum
`Last.EndLine + 1` of line 98 is an `unsigned` sum, reduced modulo `2 ^ 32`. -/
def addCommentToList (Comments : List SingleRawComment) (SRC : SingleRawComment) :
    List SingleRawComment :=
  if SRC.isOrdinary then
    if startswith SRC.RawText gybMarker then Comments
    else []
  else if Comments.isEmpty then Comments ++ [SRC]
  else
    match Comments.getLast? with
    | none => Comments ++ [SRC]
    | some Last =>
      if (Last.EndLine + 1) % 4294967296 < SRC.StartLine then []
      else Comments ++ [SRC]

/-- The merger run over a sequence of comments in source order, from a given
buffer: the body of the scanning loop applied to each comment in turn. -/
def feedComments (Comments : List SingleRawComment) (Units : List SingleRawComment) :
    List SingleRawComment :=
  Units.foldl addCommentToList Comments

/-! ## Range scanner -/

/-- Token kinds, as far as the scanner tells them apart: end of input, a
comment, anything else. -/
inductive tok where
  | eof
  | comment
  | other
  deriving DecidableEq, Repr

/-- A token of the tokenizer: its kind and its source range. -/
structure Token where
  Kind : tok
  Range : CharSourceRange
  deriving DecidableEq, Repr

/-- Modelled from the spec: the tokenizer (`swift/Parse/Lexer.h`) is an external
collaborator, `scan(buffer, startOffset, endOffset) -> sequence of Token`.  A
lexer over a byte span is the finite sequence of tokens it has yet to return;
once that is used up every further `lex` returns the end-of-input token. -/
structure Lexer where
  Pending : List Token

/-- The declaration-to-comment cache of the `ASTContext`, keyed by declaration
identity: `getRawComment(D)` is the application, an entry is a comment group and
its provenance flag. -/
abbrev RawCommentCache := Nat → Option (RawComment × Bool)

/-- The parts of `ASTContext` the resolver uses: the source manager, the
tokenizer it configures over a buffer span (buffer id, start offset, end
offset), and the raw-comment cache. -/
structure ASTContext where
  SourceMgr : SourceManager
  makeLexer : Nat → Nat → Nat → Lexer
  RawComments : RawCommentCache

/-- Cache read `ASTContext::getRawComment(D)`. -/
def ASTContext.getRawComment (Context : ASTContext) (D : Nat) :
    Option (RawComment × Bool) :=
  Context.RawComments D

/-- Cache write `ASTContext::setRawComment(D, RC, FromSerialized)`: the entry of
`D` is replaced, every other entry is kept. -/
def ASTContext.setRawComment (Context : ASTContext) (D : Nat) (RC : RawComment)
    (FromSerialized : Bool) : ASTContext :=
  { Context with
    RawComments := fun K => if K = D then some (RC, FromSerialized) else Context.RawComments K }

/-- The scanning loop of `toRawComment` (lines 122-128) over the tokens the lexer
has yet to return; `L.lex(Tok)` takes the first of them, or yields the
end-of-input token when none is left.  The loop stops at end of input, aborts on
a token that is not a comment (or on a comment text the classifier rejects), and
otherwise offers the comment to the merger and goes on. -/
def toRawComment.loop (SourceMgr : SourceManager) :
    List Token → List SingleRawComment → Option (List SingleRawComment)
  | [], Comments => some Comments
  | Tok :: Rest, Comments =>
    if Tok.Kind = tok.eof then some Comments
    else if Tok.Kind ≠ tok.comment then none
    else
      match SingleRawComment.ofRange Tok.Range SourceMgr with
      | none => none
      | some SRC => toRawComment.loop SourceMgr Rest (addCommentToList Comments SRC)

/-- The range scanner `toRawComment` (lines 106-132). -/
def toRawComment (Context : ASTContext) (Range : CharSourceRange) : Option RawComment :=
  if Range.isInvalid then some RawComment.empty
  else
    let BufferID := Context.SourceMgr.findBufferContainingLoc Range.getStart
    let Offset := Context.SourceMgr.getLocOffsetInBuffer Range.getStart BufferID
    let EndOffset := Context.SourceMgr.getLocOffsetInBuffer Range.getEnd BufferID
    let L := Context.makeLexer BufferID Offset EndOffset
    match toRawComment.loop Context.SourceMgr L.Pending [] with
    | none => none
    | some Comments => some ⟨Comments⟩

/-! ## Declaration comment resolver -/

/-- The origin kinds of a file unit, `FileUnitKind`. -/
inductive FileUnitKind where
  | Source
  | Builtin
  | SerializedAST
  | Synthesized
  | ClangModule
  | DWARFModule
  deriving DecidableEq, Repr

/-- The record a file unit keeps for a declaration's comment; only its raw
comment group is used here. -/
structure CommentInfo where
  Raw : RawComment
  deriving DecidableEq, Repr

/-- Modelled from the spec: the file unit is an external collaborator with an
origin kind and the per-declaration lookups `commentForDecl`, `groupNameForDecl`,
`sourceFileNameForDecl` and `sourceOrderForDecl`; declarations are passed by
identity. -/
structure FileUnit where
  Kind : FileUnitKind
  getCommentForDecl : Nat → Option CommentInfo
  getGroupNameForDecl : Nat → Option StringRef
  getSourceFileNameForDecl : Nat → Option StringRef
  getSourceOrderForDecl : Nat → Option Nat

/-- The module-scope context of a declaration context: a file unit, or a context
that `dyn_cast<FileUnit>` rejects. -/
inductive ModuleScopeContext where
  | fileUnit (Unit : FileUnit)
  | notFileUnit

/-- The `dyn_cast<FileUnit>` of a module-scope context. -/
def ModuleScopeContext.asFileUnit : ModuleScopeContext → Option FileUnit
  | ModuleScopeContext.fileUnit Unit => some Unit
  | ModuleScopeContext.notFileUnit => none

/-- The declaration context of a nominal type reached through an extension; only
its module-scope context is used. -/
structure EnclosingContext where
  getModuleScopeContext : ModuleScopeContext

/-- The nominal type an extension extends, as far as the accessors use it: its
identity and its declaration context (which may be null). -/
structure NominalTypeDecl where
  ID : Nat
  getDeclContext : Option EnclosingContext

/-- The innermost type context of a declaration context: an extension, with the
nominal type it extends when that is resolved, or a type declaration that
`dyn_cast_or_null<ExtensionDecl>` rejects. -/
inductive TypeContext where
  | ExtensionDecl (getExtendedNominal : Option NominalTypeDecl)
  | notExtension

/-- The parts of a declaration context the resolver and the accessors use: its
module-scope context and its innermost type context (null when the context is
not inside a type). -/
structure DeclContext where
  getModuleScopeContext : ModuleScopeContext
  getInnermostTypeContext : Option TypeContext := none

/-- The precomputed locations of a deserialized declaration; `DocRanges` is the
table of its doc-comment ranges. -/
structure CachedDeclLocs where
  DocRanges : List CharSourceRange
  deriving DecidableEq, Repr

/-- The parts of a declaration the resolver uses: its identity (the `this`
pointer), whether its kind can carry documentation, whether it has a foreign
(Clang) node, the comment range of its `RawDocCommentAttr` if it has one, its
declaration context (which may be null) and its serialized locations (which may
be absent). -/
structure Decl where
  ID : Nat
  canHaveComment : Bool
  hasClangNode : Bool
  RawDocCommentAttr : Option CharSourceRange
  getDeclContext : Option DeclContext
  getSerializedLocs : Option CachedDeclLocs

/-- The fast-path loop (lines 165-174) over the doc ranges yet to be visited:
every valid range becomes a comment appended to `SRCs`; the first invalid range
empties `SRCs` and ends the loop. -/
def collectDocRanges (SourceMgr : SourceManager) :
    List CharSourceRange → List SingleRawComment → Option (List SingleRawComment)
  | [], SRCs => some SRCs
  | Range :: Rest, SRCs =>
    if Range.isValid then
      match SingleRawComment.ofRange Range SourceMgr with
      | none => none
      | some SRC => collectDocRanges SourceMgr Rest (SRCs ++ [SRC])
    else some []

/-- The slow path of the serialized case (lines 185-190): the file unit's lazy
comment map. -/
def Decl.getRawCommentFromUnit (D : Decl) (Context : ASTContext) (Unit : FileUnit) :
    Option (RawComment × ASTContext) :=
  match Unit.getCommentForDecl D.ID with
  | some C => some (C.Raw, Context.setRawComment D.ID C.Raw false)
  | none => some (RawComment.empty, Context)

/-- The switch over the file unit's kind (lines 159-198). -/
def Decl.getRawCommentInUnit (D : Decl) (Context : ASTContext) (SerializedOK : Bool)
    (Unit : FileUnit) : Option (RawComment × ASTContext) :=
  match Unit.Kind with
  | FileUnitKind.SerializedAST =>
    if SerializedOK then
      match D.getSerializedLocs with
      | some CachedLocs =>
        if !CachedLocs.DocRanges.isEmpty then
          match collectDocRanges Context.SourceMgr CachedLocs.DocRanges [] with
          | none => none
          | some SRCs =>
            let RC : RawComment := ⟨SRCs⟩
            if !RC.isEmpty then some (RC, Context.setRawComment D.ID RC true)
            else D.getRawCommentFromUnit Context Unit
        else D.getRawCommentFromUnit Context Unit
      | none => D.getRawCommentFromUnit Context Unit
    else D.getRawCommentFromUnit Context Unit
  | FileUnitKind.Source => some (RawComment.empty, Context)
  | FileUnitKind.Builtin => some (RawComment.empty, Context)
  | FileUnitKind.Synthesized => some (RawComment.empty, Context)
  | FileUnitKind.ClangModule => some (RawComment.empty, Context)
  | FileUnitKind.DWARFModule => some (RawComment.empty, Context)

/-- The resolver after the cache check (lines 146-199): the attribute path, then
the file-unit paths. -/
def Decl.getRawCommentUncached (D : Decl) (Context : ASTContext) (SerializedOK : Bool) :
    Option (RawComment × ASTContext) :=
  match D.RawDocCommentAttr with
  | some CommentRange =>
    match toRawComment Context CommentRange with
    | none => none
    | some Result => some (Result, Context.setRawComment D.ID Result true)
  | none =>
    match D.getDeclContext with
    | none => some (RawComment.empty, Context)
    | some DC =>
      match DC.getModuleScopeContext.asFileUnit with
      | none => some (RawComment.empty, Context)
      | some Unit => D.getRawCommentInUnit Context SerializedOK Unit

/-- The resolver `Decl::getRawComment(bool SerializedOK)` (lines 134-200): the
comment group returned and the context (with its cache) afterwards; `none` is a
failed assertion in the scanner or the classifier. -/
def Decl.getRawComment (D : Decl) (Context : ASTContext) (SerializedOK : Bool) :
    Option (RawComment × ASTContext) :=
  if !D.canHaveComment then some (RawComment.empty, Context)
  else
    match Context.getRawComment D.ID with
    | some P =>
      if !SerializedOK || P.2 then some (P.1, Context)
      else D.getRawCommentUncached Context SerializedOK
    | none => D.getRawCommentUncached Context SerializedOK

/-! ## Group and order accessors -/

/-- The declaration the group queries are made for: the declaration itself or the
nominal type its enclosing extension extends. -/
inductive GroupDecl where
  | self (D : Decl)
  | nominal (ExtNominal : NominalTypeDecl)

/-- Identity of the group declaration. -/
def GroupDecl.ID : GroupDecl → Nat
  | GroupDecl.self D => D.ID
  | GroupDecl.nominal ExtNominal => ExtNominal.ID

/-- The module-scope context of the group declaration's declaration context;
`none` when that declaration context is null. -/
def GroupDecl.getModuleScopeContext : GroupDecl → Option ModuleScopeContext
  | GroupDecl.self D => D.getDeclContext.map (fun DC => DC.getModuleScopeContext)
  | GroupDecl.nominal ExtNominal =>
    ExtNominal.getDeclContext.map (fun DC => DC.getModuleScopeContext)

/-- The helper `getGroupDecl` (lines 202-212).  `none` is the dereference of a
null declaration context. -/
def getGroupDecl (D : Decl) : Option GroupDecl :=
  match D.getDeclContext with
  | none => none
  | some DC =>
    match DC.getInnermostTypeContext with
    | some (TypeContext.ExtensionDecl (some ExtNominal)) => some (GroupDecl.nominal ExtNominal)
    | _ => some (GroupDecl.self D)

/-- The common body of `getGroupName` and `getSourceFileName` (lines 215-224 and
228-237) for a given file-unit lookup.  The outer `none` is the dereference of a
null declaration context, the inner `none` is the result `None`. -/
def Decl.getGroupInfo (D : Decl) (Lookup : FileUnit → Nat → Option StringRef) :
    Option (Option StringRef) :=
  if D.hasClangNode then some none
  else
    match getGroupDecl D with
    | none => none
    | some GroupD =>
      match GroupD.getModuleScopeContext with
      | none => none
      | some MSC =>
        match MSC.asFileUnit with
        | some Unit => some (Lookup Unit GroupD.ID)
        | none => some none

/-- The accessor `Decl::getGroupName` (lines 214-225). -/
def Decl.getGroupName (D : Decl) : Option (Option StringRef) :=
  D.getGroupInfo (fun Unit GroupD => Unit.getGroupNameForDecl GroupD)

/-- The accessor `Decl::getSourceFileName` (lines 227-238). -/
def Decl.getSourceFileName (D : Decl) : Option (Option StringRef) :=
  D.getGroupInfo (fun Unit GroupD => Unit.getSourceFileNameForDecl GroupD)

/-- The accessor `Decl::getSourceOrder` (lines 240-249).  The outer `none` is the
dereference of a null declaration context. -/
def Decl.getSourceOrder (D : Decl) : Option (Option Nat) :=
  if D.hasClangNode then some none
  else
    match D.getDeclContext with
    | none => none
    | some DC =>
      match DC.getModuleScopeContext.asFileUnit with
      | some Unit => some (Unit.getSourceOrderForDecl D.ID)
      | none => some none

/-! ## Range union -/

/-- Conversion of a pointer difference to the byte length of a `CharSourceRange`.
The constructor `CharSourceRange(Start, ByteLength)` is declared in a header that
is not among the sources; its byte length is an `unsigned`, as the offsets of
lines 112-113 are, so the `ptrdiff_t` difference is reduced modulo `2 ^ 32`. -/
def toUnsigned (Z : Int) : Nat := (Z % 4294967296).toNat

/-- The range union `RawComment::getCharSourceRange` (lines 251-264). -/
def RawComment.getCharSourceRange (RC : RawComment) : CharSourceRange :=
  if RC.isEmpty then CharSourceRange.invalid
  else
    match RC.Comments.head?, RC.Comments.getLast? with
    | some Front, some Back =>
      let Start := Front.Range.getStart
      if Start.isInvalid then CharSourceRange.invalid
      else
        let End := Back.Range.getEnd
        let Length : Int := (End.Value : Int) - (Start.Value : Int)
        ⟨Start, toUnsigned Length⟩
    | _, _ => CharSourceRange.invalid

/-! ## Reference definitions and sample data

The definitions of this section are not part of the program.  The reference
definitions restate, in the words of the specification, what the program is
compared with; the sample comments are the concrete inputs of the examples. -/

/-- A generated-source line marker: an ordinary comment whose text starts with
`// ###`. -/
def SingleRawComment.isLineMarker (SRC : SingleRawComment) : Bool :=
  SRC.isOrdinary && startswith SRC.RawText gybMarker

/-- The sequence with every generated-source line marker removed. -/
def nonMarkers (Units : List SingleRawComment) : List SingleRawComment :=
  Units.filter (fun U => !U.isLineMarker)

/-- Reference predicate, in the words of the specification: a run of mutually
line-adjacent documentation comments.  Every comment is a documentation comment
and each one starts on the line where its predecessor ends, or on the next. -/
def isAdjacentDocRun : List SingleRawComment → Bool
  | [] => true
  | [U] => !U.isOrdinary
  | P :: N :: Rest =>
    !P.isOrdinary && decide (N.StartLine ≤ P.EndLine + 1) && isAdjacentDocRun (N :: Rest)

/-- Reference definition, in the words of the specification: the trailing run of
mutually line-adjacent documentation comments of the input, that is its
longest suffix that is such a run (`List.tails` lists the suffixes from the
longest to the shortest). -/
def trailingDocRun (Units : List SingleRawComment) : List SingleRawComment :=
  (Units.tails.find? isAdjacentDocRun).getD []

/-- Sample comment: the one-line documentation comment `/// x` on line `Line`. -/
def docAt (Line : Nat) : SingleRawComment :=
  { Range := CharSourceRange.invalid
    RawText := ['/', '/', '/', ' ', 'x']
    Kind := CommentKind.LineDoc
    StartColumn := 1
    StartLine := Line
    EndLine := Line }

/-- Sample comment: the one-line ordinary comment `// x` on line `Line`. -/
def ordinaryAt (Line : Nat) : SingleRawComment :=
  { Range := CharSourceRange.invalid
    RawText := ['/', '/', ' ', 'x']
    Kind := CommentKind.OrdinaryLine
    StartColumn := 1
    StartLine := Line
    EndLine := Line }

/-- Sample comment: the generated-source line marker `// ###line` on line
`Line`. -/
def markerAt (Line : Nat) : SingleRawComment :=
  { Range := CharSourceRange.invalid
    RawText := ['/', '/', ' ', '#', '#', '#', 'l', 'i', 'n', 'e']
    Kind := CommentKind.OrdinaryLine
    StartColumn := 1
    StartLine := Line
    EndLine := Line }

/-- Reference rule of the classifier, in the words of the specification: a text
starting with `//` is a documentation line comment when it has at least 3
characters and its third character is `/`, and an ordinary line comment
otherwise; a text starting with `/*` is a documentation block comment when its
third character is `*`, and an ordinary block comment otherwise. -/
def referenceKind (Comment : StringRef) : Option CommentKind :=
  if startswith Comment ['/', '/'] then
    if 3 ≤ Comment.length ∧ Comment[2]? = some '/' then some CommentKind.LineDoc
    else some CommentKind.OrdinaryLine
  else if startswith Comment ['/', '*'] then
    if Comment[2]? = some '*' then some CommentKind.BlockDoc
    else some CommentKind.OrdinaryBlock
  else none

/-- A well-formed comment text: a line comment, which starts with `//`, or a
block comment, which starts with `/*` and is at least as long as the shortest
block comment `/**/`. -/
def isWellFormedComment (Comment : StringRef) : Bool :=
  startswith Comment ['/', '/']
    || (startswith Comment ['/', '*'] && decide (4 ≤ Comment.length))

/-- The context whose cache holds no entry for the declaration `D` and is
otherwise that of `Context`. -/
def ASTContext.withoutRawComment (Context : ASTContext) (D : Nat) : ASTContext :=
  { Context with
    RawComments := fun K => if K = D then none else Context.RawComments K }

/-- Sample source text, held at address 1000: the documentation line comments
`/// a` and `/// b` on lines 1 and 2. -/
def sampleText : StringRef :=
  ['/', '/', '/', ' ', 'a', '\n', '/', '/', '/', ' ', 'b', '\n']

/-- Sample source manager over `sampleText`: text extraction by offset, lines and
columns counted from 1. -/
def sampleSourceMgr : SourceManager :=
  { extractText := fun R => (sampleText.drop (R.Start.Value - 1000)).take R.ByteLength
    getLineAndColumnInBuffer := fun L =>
      ((sampleText.take (L.Value - 1000)).count '\n' + 1,
       ((sampleText.take (L.Value - 1000)).reverse.takeWhile (fun C => C != '\n')).length + 1)
    findBufferContainingLoc := fun _ => 1
    getLocOffsetInBuffer := fun L _ => L.Value - 1000 }

/-- Sample tokens of `sampleText`: its two comments. -/
def sampleTokens : List Token :=
  [⟨tok.comment, ⟨⟨1000⟩, 5⟩⟩, ⟨tok.comment, ⟨⟨1006⟩, 5⟩⟩]

/-- Sample comment group: the result of an earlier resolution, the comment of
line 2 alone. -/
def sampleGroup : RawComment :=
  ⟨[{ Range := ⟨⟨1006⟩, 5⟩
      RawText := ['/', '/', '/', ' ', 'b']
      Kind := CommentKind.LineDoc
      StartColumn := 1
      StartLine := 2
      EndLine := 2 }]⟩

/-- Sample context: the sample source manager, a tokenizer returning the sample
tokens that lie in the requested span, and a cache with the entry `Entry` for
declaration 7. -/
def sampleContext (Entry : Option (RawComment × Bool)) : ASTContext :=
  { SourceMgr := sampleSourceMgr
    makeLexer := fun _ Offset EndOffset =>
      ⟨sampleTokens.filter (fun T =>
        decide (Offset ≤ T.Range.getStart.Value - 1000)
          && decide (T.Range.getEnd.Value - 1000 ≤ EndOffset))⟩
    RawComments := fun K => if K = 7 then Entry else none }

/-- Sample declaration 7: it can carry documentation, and its raw-doc-comment
attribute covers the whole of `sampleText`. -/
def sampleDecl : Decl :=
  { ID := 7
    canHaveComment := true
    hasClangNode := false
    RawDocCommentAttr := some ⟨⟨1000⟩, 12⟩
    getDeclContext := none
    getSerializedLocs := none }

/-- The merger invariant, in the words of the claim: every comment of the buffer
is a documentation comment, and every two consecutive comments `Prev`, `Next`
(the pairs of the buffer zipped with its tail) satisfy
`Next.StartLine ≤ Prev.EndLine + 1`. -/
def MergerInvariant (B : List SingleRawComment) : Prop :=
  (∀ U ∈ B, U.isOrdinary = false)
    ∧ ∀ Pair ∈ B.zip B.tail, Pair.2.StartLine ≤ Pair.1.EndLine + 1

instance (B : List SingleRawComment) : Decidable (MergerInvariant B) :=
  inferInstanceAs (Decidable ((∀ U ∈ B, U.isOrdinary = false)
    ∧ ∀ Pair ∈ B.zip B.tail, Pair.2.StartLine ≤ Pair.1.EndLine + 1))

/-- A succession of resolver calls on one declaration, in the given modes, each
call made in the context the one before it left: the groups returned, in order,
and the context after the last call. -/
def Decl.getRawCommentSeq (D : Decl) (Context : ASTContext) :
    List Bool → Option (List RawComment × ASTContext)
  | [] => some ([], Context)
  | SerializedOK :: Rest =>
    match D.getRawComment Context SerializedOK with
    | none => none
    | some (Result, After) =>
      match D.getRawCommentSeq After Rest with
      | none => none
      | some (Results, Final) => some (Result :: Results, Final)

/-- Sample source manager over a text held at address `Base`: text extraction by
offset, lines and columns counted from 1. -/
def sourceMgrOver (Text : StringRef) (Base : Nat) : SourceManager :=
  { extractText := fun R => (Text.drop (R.Start.Value - Base)).take R.ByteLength
    getLineAndColumnInBuffer := fun L =>
      ((Text.take (L.Value - Base)).count '\n' + 1,
       ((Text.take (L.Value - Base)).reverse.takeWhile (fun C => C != '\n')).length + 1)
    findBufferContainingLoc := fun _ => 2
    getLocOffsetInBuffer := fun L _ => L.Value - Base }

/-- Sample source text, held at address 2000: the documentation comment `/// a`
on line 1, the ordinary comment `// o` on line 2, an empty line 3 and the
documentation comment `/// b` on line 4. -/
def gapText : StringRef :=
  ['/', '/', '/', ' ', 'a', '\n', '/', '/', ' ', 'o', '\n', '\n',
   '/', '/', '/', ' ', 'b', '\n']

/-- Sample doc-range table: the three comments of `gapText`. -/
def gapRanges : List CharSourceRange :=
  [⟨⟨2000⟩, 5⟩, ⟨⟨2006⟩, 4⟩, ⟨⟨2012⟩, 5⟩]

/-- Sample context over `gapText` with an empty cache; its tokenizer returns no
token. -/
def gapContext : ASTContext :=
  { SourceMgr := sourceMgrOver gapText 2000
    makeLexer := fun _ _ _ => ⟨[]⟩
    RawComments := fun _ => none }

/-- Sample file unit of the given kind whose lazy comment map holds `Comment` for
declaration 8 and whose group-name, file-name and source-order lookups answer
`G`, `F` and `3` for every declaration. -/
def sampleUnit (Kind : FileUnitKind) (Comment : Option CommentInfo) : FileUnit :=
  { Kind := Kind
    getCommentForDecl := fun K => if K = 8 then Comment else none
    getGroupNameForDecl := fun _ => some ['G']
    getSourceFileNameForDecl := fun _ => some ['F']
    getSourceOrderForDecl := fun _ => some 3 }

/-- Sample declaration 8: it can carry documentation, has no attribute, lives in
the file unit `Unit` and has the serialized locations `Locs`. -/
def declInUnit (Unit : FileUnit) (Locs : Option CachedDeclLocs) : Decl :=
  { ID := 8
    canHaveComment := true
    hasClangNode := false
    RawDocCommentAttr := none
    getDeclContext := some { getModuleScopeContext := ModuleScopeContext.fileUnit Unit }
    getSerializedLocs := Locs }

/-- Sample context whose tokenizer returns a token that is not a comment, so that
every scan that reaches the tokenizer aborts. -/
def otherTokenContext : ASTContext :=
  { SourceMgr := sourceMgrOver gapText 2000
    makeLexer := fun _ _ _ => ⟨[⟨tok.other, ⟨⟨2000⟩, 5⟩⟩]⟩
    RawComments := fun _ => none }

/-- Sample nominal type 10, declared in the file unit `Unit`. -/
def nominalInUnit (Unit : FileUnit) : NominalTypeDecl :=
  { ID := 10
    getDeclContext := some { getModuleScopeContext := ModuleScopeContext.fileUnit Unit } }

/-- Sample declaration 9, a member of an extension of the nominal type
`ExtNominal`; the extension lives in the file unit `Unit`. -/
def declInExtension (Unit : FileUnit) (ExtNominal : NominalTypeDecl) : Decl :=
  { ID := 9
    canHaveComment := true
    hasClangNode := false
    RawDocCommentAttr := none
    getDeclContext :=
      some { getModuleScopeContext := ModuleScopeContext.fileUnit Unit
             getInnermostTypeContext := some (TypeContext.ExtensionDecl (some ExtNominal)) }
    getSerializedLocs := none }

/-- Sample file unit of the given kind that knows the group `N` and the file `M`
of declaration 10 only. -/
def nominalUnit (Kind : FileUnitKind) : FileUnit :=
  { Kind := Kind
    getCommentForDecl := fun _ => none
    getGroupNameForDecl := fun K => if K = 10 then some ['N'] else none
    getSourceFileNameForDecl := fun K => if K = 10 then some ['M'] else none
    getSourceOrderForDecl := fun _ => none }

/-- Sample declaration 11 with a foreign (Clang) node, in the file unit `Unit`. -/
def clangDeclInUnit (Unit : FileUnit) : Decl :=
  { ID := 11
    canHaveComment := true
    hasClangNode := true
    RawDocCommentAttr := none
    getDeclContext := some { getModuleScopeContext := ModuleScopeContext.fileUnit Unit }
    getSerializedLocs := none }

/-- Modelled from the spec: the lookups of a file unit are virtual functions of
`FileUnit`, declared in a header that is not among the sources.  Group
information is available only for declarations of precompiled/serialized file
units (the comments of lines 218, 231 and 243: "We can only get group
information from deserialized module files"): a file unit of any other kind
answers no group name, no source file name and no source order. -/
def FileUnit.answersOnlyIfSerialized (Unit : FileUnit) : Prop :=
  Unit.Kind ≠ FileUnitKind.SerializedAST →
    ∀ K, Unit.getGroupNameForDecl K = none
      ∧ Unit.getSourceFileNameForDecl K = none
      ∧ Unit.getSourceOrderForDecl K = none

/-- Sample file unit of the given kind whose lookups answer as the kinds of file
unit do: the group `G`, the file `F` and the order `3` for every declaration
when the unit is a precompiled/serialized one, nothing otherwise. -/
def unitOfKind (Kind : FileUnitKind) : FileUnit :=
  { Kind := Kind
    getCommentForDecl := fun _ => none
    getGroupNameForDecl := fun _ =>
      if Kind = FileUnitKind.SerializedAST then some ['G'] else none
    getSourceFileNameForDecl := fun _ =>
      if Kind = FileUnitKind.SerializedAST then some ['F'] else none
    getSourceOrderForDecl := fun _ =>
      if Kind = FileUnitKind.SerializedAST then some 3 else none }

/-- Sample comment: a documentation block comment from line `Start` to line
`End`. -/
def docBlockAt (Start End : Nat) : SingleRawComment :=
  { Range := CharSourceRange.invalid
    RawText := ['/', '*', '*', ' ', 'x', ' ', '*', '/']
    Kind := CommentKind.BlockDoc
    StartColumn := 1
    StartLine := Start
    EndLine := End }

/-! ## Lemmas on the merger -/

theorem feedComments_append (B Xs Ys : List SingleRawComment) :
    feedComments B (Xs ++ Ys) = feedComments (feedComments B Xs) Ys := by
  simp [feedComments, List.foldl_append]

theorem feedComments_snoc (B Xs : List SingleRawComment) (U : SingleRawComment) :
    feedComments B (Xs ++ [U]) = addCommentToList (feedComments B Xs) U := by
  simp [feedComments, List.foldl_append]

theorem addCommentToList_marker (B : List SingleRawComment) (M : SingleRawComment)
    (hM : M.isLineMarker = true) : addCommentToList B M = B := by
  simp only [SingleRawComment.isLineMarker, Bool.and_eq_true] at hM
  simp [addCommentToList, hM.1, hM.2]

theorem addCommentToList_ordinary (B : List SingleRawComment) (O : SingleRawComment)
    (hO : O.isOrdinary = true) (hM : startswith O.RawText gybMarker = false) :
    addCommentToList B O = [] := by
  simp [addCommentToList, hO, hM]

theorem addCommentToList_doc_nil (U : SingleRawComment) (hU : U.isOrdinary = false) :
    addCommentToList [] U = [U] := by
  simp [addCommentToList, hU]

theorem addCommentToList_doc_last (B : List SingleRawComment) (Last U : SingleRawComment)
    (hL : B.getLast? = some Last) (hU : U.isOrdinary = false) :
    addCommentToList B U
      = if (Last.EndLine + 1) % 4294967296 < U.StartLine then [] else B ++ [U] := by
  have hne : B ≠ [] := by
    intro h
    simp [h] at hL
  simp [addCommentToList, hU, hL, hne]

theorem addCommentToList_wraps :
    addCommentToList [docBlockAt 1 4294967295] (docAt 5) = []
    ∧ addCommentToList [docBlockAt 1 4294967294] (docAt 5)
        = [docBlockAt 1 4294967294, docAt 5] := by
  decide

theorem feedComments_nonMarkers (B Units : List SingleRawComment) :
    feedComments B Units = feedComments B (nonMarkers Units) := by
  induction Units generalizing B with
  | nil => rfl
  | cons U Rest ih =>
    by_cases hM : U.isLineMarker = true
    · have h1 : nonMarkers (U :: Rest) = nonMarkers Rest := by
        simp [nonMarkers, hM]
      rw [h1, ← ih B]
      show feedComments (addCommentToList B U) Rest = feedComments B Rest
      rw [addCommentToList_marker B U hM]
    · have h1 : nonMarkers (U :: Rest) = U :: nonMarkers Rest := by
        simp [nonMarkers, hM]
      rw [h1]
      show feedComments (addCommentToList B U) Rest
        = feedComments (addCommentToList B U) (nonMarkers Rest)
      exact ih _

theorem feedComments_after_ordinary (B Xs Ys : List SingleRawComment) (O : SingleRawComment)
    (hO : O.isOrdinary = true) (hM : startswith O.RawText gybMarker = false) :
    feedComments B (Xs ++ [O] ++ Ys) = feedComments [] Ys := by
  rw [feedComments_append, feedComments_snoc, addCommentToList_ordinary _ O hO hM]

/-! ## Lemmas on the reference run -/

theorem isAdjacentDocRun_snoc (T : List SingleRawComment) (U : SingleRawComment) :
    isAdjacentDocRun (T ++ [U]) =
      (isAdjacentDocRun T && !U.isOrdinary &&
        (match T.getLast? with
         | none => true
         | some P => decide (U.StartLine ≤ P.EndLine + 1))) := by
  induction T with
  | nil => simp [isAdjacentDocRun]
  | cons P Rest ih =>
    cases Rest with
    | nil =>
      simp [isAdjacentDocRun]
      cases P.isOrdinary <;> cases U.isOrdinary <;> simp
    | cons N Rest2 =>
      have h1 : (P :: N :: Rest2 ++ [U]) = P :: N :: (Rest2 ++ [U]) := rfl
      have h2 : (P :: N :: Rest2).getLast? = (N :: Rest2).getLast? := by
        simp [List.getLast?_cons_cons]
      have h3 : (N :: Rest2 ++ [U]) = N :: (Rest2 ++ [U]) := rfl
      rw [h1, h2]
      simp only [isAdjacentDocRun]
      rw [← h3, ih]
      simp only [Bool.and_assoc]

theorem feedComments_of_run (V : List SingleRawComment) (hV : isAdjacentDocRun V = true)
    (hBound : ∀ U ∈ V, U.EndLine + 1 < 4294967296) :
    feedComments [] V = V := by
  induction V using List.reverseRecOn with
  | nil => rfl
  | append_singleton T U ih =>
    rw [isAdjacentDocRun_snoc] at hV
    simp only [Bool.and_eq_true, Bool.not_eq_true'] at hV
    obtain ⟨⟨hT, hU⟩, hadj⟩ := hV
    rw [feedComments_snoc, ih hT (fun X hX => hBound X (List.mem_append_left _ hX))]
    cases hL : T.getLast? with
    | none =>
      have : T = [] := List.getLast?_eq_none_iff.mp hL
      subst this
      exact addCommentToList_doc_nil U hU
    | some P =>
      rw [hL] at hadj
      simp only [decide_eq_true_eq] at hadj
      have hP : P.EndLine + 1 < 4294967296 :=
        hBound P (List.mem_append_left _ (List.mem_of_getLast?_eq_some hL))
      rw [addCommentToList_doc_last T P U hL hU, Nat.mod_eq_of_lt hP, if_neg (by omega)]

theorem trailingDocRun_nil : trailingDocRun [] = [] := by
  simp [trailingDocRun, isAdjacentDocRun]

theorem trailingDocRun_cons (A : SingleRawComment) (L : List SingleRawComment) :
    trailingDocRun (A :: L) = if isAdjacentDocRun (A :: L) then A :: L else trailingDocRun L := by
  by_cases h : isAdjacentDocRun (A :: L) = true
  · simp [trailingDocRun, List.find?_cons, h]
  · simp [trailingDocRun, List.find?_cons, h]

theorem trailingDocRun_isRun (Units : List SingleRawComment) :
    isAdjacentDocRun (trailingDocRun Units) = true := by
  induction Units with
  | nil => simp [trailingDocRun_nil, isAdjacentDocRun]
  | cons A L ih =>
    rw [trailingDocRun_cons]
    by_cases h : isAdjacentDocRun (A :: L) = true
    · simp [h]
    · simp [h, ih]

theorem trailingDocRun_suffix (Units : List SingleRawComment) :
    trailingDocRun Units <:+ Units := by
  induction Units with
  | nil => simp [trailingDocRun_nil]
  | cons A L ih =>
    rw [trailingDocRun_cons]
    by_cases h : isAdjacentDocRun (A :: L) = true
    · simp [h]
    · simp only [h]
      exact List.IsSuffix.trans ih (List.suffix_cons A L)

theorem trailingDocRun_maximal (Units T : List SingleRawComment) (hT : T <:+ Units)
    (hR : isAdjacentDocRun T = true) : T <:+ trailingDocRun Units := by
  induction Units with
  | nil =>
    have : T = [] := List.suffix_nil.mp hT
    simp [this, trailingDocRun_nil]
  | cons A L ih =>
    rw [trailingDocRun_cons]
    by_cases h : isAdjacentDocRun (A :: L) = true
    · simp only [h, if_true]
      exact hT
    · simp only [h]
      rcases List.suffix_cons_iff.mp hT with h1 | h1
      · rw [h1] at hR
        exact absurd hR h
      · exact ih h1

theorem addCommentToList_run (B : List SingleRawComment) (U : SingleRawComment)
    (hB : isAdjacentDocRun B = true) : isAdjacentDocRun (addCommentToList B U) = true := by
  by_cases hO : U.isOrdinary = true
  · by_cases hM : startswith U.RawText gybMarker = true
    · simp [addCommentToList, hO, hM, hB]
    · simp [addCommentToList, hO, hM, isAdjacentDocRun]
  · have hO2 : U.isOrdinary = false := by simpa using hO
    cases hL : B.getLast? with
    | none =>
      have : B = [] := List.getLast?_eq_none_iff.mp hL
      subst this
      rw [addCommentToList_doc_nil U hO2]
      simp [isAdjacentDocRun, hO2]
    | some P =>
      rw [addCommentToList_doc_last B P U hL hO2]
      by_cases hg : (P.EndLine + 1) % 4294967296 < U.StartLine
      · simp [hg, isAdjacentDocRun]
      · simp only [hg, if_false]
        rw [isAdjacentDocRun_snoc, hL]
        have hle : (P.EndLine + 1) % 4294967296 ≤ P.EndLine + 1 := Nat.mod_le _ _
        simp [hB, hO2]
        omega

theorem feedComments_run (B Units : List SingleRawComment)
    (hB : isAdjacentDocRun B = true) : isAdjacentDocRun (feedComments B Units) = true := by
  induction Units generalizing B with
  | nil => exact hB
  | cons U Rest ih => exact ih _ (addCommentToList_run B U hB)

theorem nonMarkers_snoc (T : List SingleRawComment) (U : SingleRawComment) :
    nonMarkers (T ++ [U]) = if U.isLineMarker then nonMarkers T else nonMarkers T ++ [U] := by
  by_cases h : U.isLineMarker = true
  · simp [nonMarkers, List.filter_append, h]
  · simp [nonMarkers, List.filter_append, h]

theorem feedComments_suffix (Units : List SingleRawComment) :
    feedComments [] Units <:+ nonMarkers Units := by
  induction Units using List.reverseRecOn with
  | nil => simp [feedComments, nonMarkers]
  | append_singleton T U ih =>
    rw [feedComments_snoc, nonMarkers_snoc]
    by_cases hM : U.isLineMarker = true
    · rw [addCommentToList_marker _ U hM]
      simpa [hM] using ih
    · simp only [hM]
      have hsnoc : feedComments [] T ++ [U] <:+ nonMarkers T ++ [U] := by
        obtain ⟨P, hP⟩ := ih
        exact ⟨P, by rw [← hP, List.append_assoc]⟩
      by_cases hO : U.isOrdinary = true
      · have hS : startswith U.RawText gybMarker = false := by
          simpa [SingleRawComment.isLineMarker, hO] using hM
        rw [addCommentToList_ordinary _ U hO hS]
        exact List.nil_suffix
      · have hO2 : U.isOrdinary = false := by simpa using hO
        cases hL : (feedComments [] T).getLast? with
        | none =>
          have h0 : feedComments [] T = [] := List.getLast?_eq_none_iff.mp hL
          rw [h0, addCommentToList_doc_nil U hO2]
          exact List.suffix_append _ _
        | some P =>
          rw [addCommentToList_doc_last _ P U hL hO2]
          by_cases hg : (P.EndLine + 1) % 4294967296 < U.StartLine
          · simp only [hg, if_true]
            exact List.nil_suffix
          · simp only [hg, if_false]
            exact hsnoc

theorem isAdjacentDocRun_all_doc (V : List SingleRawComment)
    (hV : isAdjacentDocRun V = true) : ∀ U ∈ V, U.isOrdinary = false := by
  induction V with
  | nil => simp
  | cons P Rest ih =>
    cases Rest with
    | nil => simpa [isAdjacentDocRun] using hV
    | cons N Rest2 =>
      simp only [isAdjacentDocRun, Bool.and_eq_true, Bool.not_eq_true',
        decide_eq_true_eq] at hV
      intro U hU
      rcases List.mem_cons.mp hU with h1 | h1
      · rw [h1]
        exact hV.1.1
      · exact ih hV.2 U h1

theorem isAdjacentDocRun_tail (P : SingleRawComment) (Rest : List SingleRawComment)
    (hV : isAdjacentDocRun (P :: Rest) = true) : isAdjacentDocRun Rest = true := by
  cases Rest with
  | nil => rfl
  | cons N Rest2 =>
    simp only [isAdjacentDocRun, Bool.and_eq_true] at hV
    exact hV.2

theorem nonMarkers_eq_self (X : List SingleRawComment)
    (hX : ∀ U ∈ X, U.isLineMarker = false) : nonMarkers X = X := by
  unfold nonMarkers
  rw [List.filter_eq_self]
  intro U hU
  simp [hX U hU]

theorem feedComments_getLast (X : List SingleRawComment)
    (hX : ∀ U ∈ X, U.isLineMarker = false) (P : SingleRawComment)
    (hP : (feedComments [] X).getLast? = some P) :
    ∃ Init, X = Init ++ [P] := by
  have hS := feedComments_suffix X
  rw [nonMarkers_eq_self X hX] at hS
  obtain ⟨T, hT⟩ := hS
  obtain ⟨I, hI⟩ : ∃ I, feedComments [] X = I ++ [P] := List.getLast?_eq_some_iff.mp hP
  exact ⟨T ++ I, by rw [← hT, hI, List.append_assoc]⟩

theorem feedComments_at_trailing_run (W X : List SingleRawComment)
    (hNM : ∀ U ∈ W, U.isLineMarker = false)
    (hBound : ∀ U ∈ W, U.EndLine + 1 < 4294967296)
    (hX : W = X ++ trailingDocRun W) :
    (feedComments [] X = [] → feedComments [] W = trailingDocRun W)
    ∧ (feedComments [] X ≠ [] → feedComments [] W = (trailingDocRun W).tail) := by
  have hRun := trailingDocRun_isRun W
  have hMax := fun T => trailingDocRun_maximal W T
  generalize trailingDocRun W = R at hX hRun hMax
  subst hX
  have hBR : ∀ U ∈ R, U.EndLine + 1 < 4294967296 :=
    fun U hU => hBound U (List.mem_append_right _ hU)
  have hNX : ∀ U ∈ X, U.isLineMarker = false :=
    fun U hU => hNM U (List.mem_append_left _ hU)
  constructor
  · intro h0
    rw [feedComments_append, h0]
    exact feedComments_of_run R hRun hBR
  · intro hne
    obtain ⟨P, hP⟩ : ∃ P, (feedComments [] X).getLast? = some P := by
      cases hL : (feedComments [] X).getLast? with
      | none => exact absurd (List.getLast?_eq_none_iff.mp hL) hne
      | some P => exact ⟨P, rfl⟩
    have hPdoc : P.isOrdinary = false :=
      isAdjacentDocRun_all_doc _ (feedComments_run [] X rfl) P (List.mem_of_getLast?_eq_some hP)
    obtain ⟨Init, hInit⟩ := feedComments_getLast X hNX P hP
    have hPB : P.EndLine + 1 < 4294967296 :=
      hBound P (by rw [hInit]; simp)
    cases R with
    | nil =>
      have h1 : [P] <:+ X ++ [] := ⟨Init, by rw [hInit]; simp⟩
      have h2 := hMax [P] h1 (by simp [isAdjacentDocRun, hPdoc])
      have h3 := h2.length_le
      simp at h3
    | cons R0 Rest =>
      have hR0 : R0.isOrdinary = false :=
        isAdjacentDocRun_all_doc _ hRun R0 (List.mem_cons_self _ _)
      have hGap : P.EndLine + 1 < R0.StartLine := by
        by_contra hNo
        have h1 : (P :: R0 :: Rest) <:+ X ++ R0 :: Rest :=
          ⟨Init, by rw [hInit]; simp⟩
        have h2 := hMax (P :: R0 :: Rest) h1
          (by
            simp only [isAdjacentDocRun, hPdoc, hRun, Bool.not_false, Bool.true_and,
              Bool.and_true, decide_eq_true_eq]
            omega)
        have h3 := h2.length_le
        simp at h3
      rw [feedComments_append]
      show feedComments (addCommentToList (feedComments [] X) R0) Rest = Rest
      rw [addCommentToList_doc_last _ P R0 hP hR0, Nat.mod_eq_of_lt hPB, if_pos hGap]
      exact feedComments_of_run Rest (isAdjacentDocRun_tail R0 Rest hRun)
        (fun U hU => hBR U (List.mem_cons_of_mem _ hU))

/-! ## The comment merger: claims C1 to C5 -/

/-- Claim C1, refuted as stated: documentation comments on lines 1 and 2 followed
by one on line 4 leave the merger with the empty group, although the trailing
run of mutually line-adjacent documentation comments of that input is the
comment on line 4. -/
theorem merger_gap_drops_trailing_run :
    trailingDocRun [docAt 1, docAt 2, docAt 4] = [docAt 4]
    ∧ feedComments [] [docAt 1, docAt 2, docAt 4] = []
    ∧ feedComments [] [docAt 1, docAt 2, docAt 4]
        ≠ trailingDocRun [docAt 1, docAt 2, docAt 4] := by
  decide

/-- Claim C1, amended: for every sequence of comments, with line numbers below
the `unsigned` maximum, fed in source order to the merger from an empty buffer,
the final kept group is the trailing run of mutually line-adjacent documentation
comments of the input with the line markers removed when the merger's buffer is
empty on reaching that run (as it is when the run is the whole marker-free input
or the comment before it is ordinary), and is that run without its first comment
when the buffer is not empty on reaching it: the run's first comment then meets
the gap, empties the buffer and is not kept itself.  Documentation comments on
lines 1 and 2 are kept as a group of two; documentation comments on lines 1 and 2
followed by one on line 4 leave the empty group; documentation comments on lines
1, 3 and 5 leave the comment of line 5. -/
theorem merger_keeps_trailing_run (Units : List SingleRawComment)
    (hBound : ∀ U ∈ Units, U.EndLine + 1 < 4294967296) :
    trailingDocRun (nonMarkers Units) <:+ nonMarkers Units
    ∧ (∀ X : List SingleRawComment,
        nonMarkers Units = X ++ trailingDocRun (nonMarkers Units) →
        (feedComments [] X = [] →
          feedComments [] Units = trailingDocRun (nonMarkers Units))
        ∧ (feedComments [] X ≠ [] →
          feedComments [] Units = (trailingDocRun (nonMarkers Units)).tail)
        ∧ ((∀ O, X.getLast? = some O → O.isOrdinary = true) → feedComments [] X = []))
    ∧ feedComments [] [docAt 1, docAt 2] = [docAt 1, docAt 2]
    ∧ feedComments [] [docAt 1, docAt 2, docAt 4] = []
    ∧ feedComments [] [docAt 1, docAt 3, docAt 5] = [docAt 5] := by
  refine ⟨trailingDocRun_suffix _, ?_, by decide, by decide, by decide⟩
  intro X hX
  have hNM : ∀ U ∈ nonMarkers Units, U.isLineMarker = false := by
    intro U hU
    have := (List.mem_filter.mp hU).2
    simpa using this
  have hB : ∀ U ∈ nonMarkers Units, U.EndLine + 1 < 4294967296 :=
    fun U hU => hBound U (List.mem_filter.mp hU).1
  have hKey := feedComments_at_trailing_run (nonMarkers Units) X hNM hB hX
  rw [← feedComments_nonMarkers] at hKey
  refine ⟨hKey.1, hKey.2, ?_⟩
  intro hLast
  rcases List.eq_nil_or_concat X with h0 | ⟨X1, O, h1⟩
  · rw [h0]
    rfl
  · rw [List.concat_eq_append] at h1
    have hO : O.isOrdinary = true := hLast O (by rw [h1]; simp)
    have hnm : O.isLineMarker = false := hNM O (by rw [hX, h1]; simp)
    have hS : startswith O.RawText gybMarker = false := by
      simpa [SingleRawComment.isLineMarker, hO] using hnm
    rw [h1, feedComments_snoc, addCommentToList_ordinary _ O hO hS]

/-- Witness for claim C1: on the documentation comments of lines 1, 2 and 4 the
buffer holds the first two on reaching the trailing run, the comment of line 4,
and the kept group is that run without its first comment; on those of lines 1,
3 and 5 the buffer is empty on reaching the run and the run is kept whole. -/
theorem merger_keeps_trailing_run_witness :
    feedComments [] [docAt 1, docAt 2, docAt 4]
        = (trailingDocRun (nonMarkers [docAt 1, docAt 2, docAt 4])).tail
    ∧ feedComments [] [docAt 1, docAt 3, docAt 5]
        = trailingDocRun (nonMarkers [docAt 1, docAt 3, docAt 5]) :=
  ⟨((merger_keeps_trailing_run [docAt 1, docAt 2, docAt 4] (by decide)).2.1
      [docAt 1, docAt 2] (by decide)).2.1 (by decide),
   ((merger_keeps_trailing_run [docAt 1, docAt 3, docAt 5] (by decide)).2.1
      [docAt 1, docAt 3] (by decide)).1 (by decide)⟩

/-- Claim C2: for every non-empty buffer with last element `Last` and every
documentation comment `U`, one merger step gives the empty buffer when
`Last.EndLine + 1 < U.StartLine` (so `U` is not appended and starts no new
group), and gives the buffer with `U` appended at its end, the earlier elements
unchanged, when `U.StartLine ≤ Last.EndLine + 1`.  This holds with the sum read
as the `unsigned` sum of the code, and, for a last line below the `unsigned`
maximum, with the sum of natural numbers. -/
theorem addCommentToList_doc_on_nonempty (Comments : List SingleRawComment)
    (Last U : SingleRawComment) (hLast : Comments.getLast? = some Last)
    (hDoc : U.isOrdinary = false) :
    ((Last.EndLine + 1) % 4294967296 < U.StartLine → addCommentToList Comments U = [])
    ∧ (U.StartLine ≤ (Last.EndLine + 1) % 4294967296 →
        addCommentToList Comments U = Comments ++ [U])
    ∧ (Last.EndLine + 1 < 4294967296 →
        (Last.EndLine + 1 < U.StartLine → addCommentToList Comments U = [])
        ∧ (U.StartLine ≤ Last.EndLine + 1 →
            addCommentToList Comments U = Comments ++ [U])) := by
  rw [addCommentToList_doc_last Comments Last U hLast hDoc]
  refine ⟨?_, ?_, ?_⟩
  · intro h
    simp [h]
  · intro h
    rw [if_neg (by omega)]
  · intro hBound
    rw [Nat.mod_eq_of_lt hBound]
    constructor
    · intro h
      simp [h]
    · intro h
      rw [if_neg (by omega)]

/-- Witness for claim C2: the buffer holding the documentation comments of lines
1 and 2, offered the documentation comment of line 4 and that of line 3. -/
theorem addCommentToList_doc_on_nonempty_witness :
    addCommentToList [docAt 1, docAt 2] (docAt 4) = []
    ∧ addCommentToList [docAt 1, docAt 2] (docAt 3) = [docAt 1, docAt 2] ++ [docAt 3] :=
  ⟨((addCommentToList_doc_on_nonempty [docAt 1, docAt 2] (docAt 2) (docAt 4) rfl rfl).2.2
      (by decide)).1 (by decide),
   ((addCommentToList_doc_on_nonempty [docAt 1, docAt 2] (docAt 2) (docAt 3) rfl rfl).2.2
      (by decide)).2 (by decide)⟩

/-- Claim C3: an ordinary comment that is not a generated-source line marker
clears everything accumulated before it: merging `Xs ++ [O] ++ Ys` from the empty
buffer gives the same kept group as merging `Ys` alone; and doc(line 1),
doc(line 2), ordinary(line 3), doc(line 5) gives exactly the group of doc(line 5). -/
theorem ordinary_comment_clears_history (Xs Ys : List SingleRawComment)
    (O : SingleRawComment) (hOrd : O.isOrdinary = true)
    (hNotMarker : startswith O.RawText gybMarker = false) :
    feedComments [] (Xs ++ [O] ++ Ys) = feedComments [] Ys
    ∧ feedComments [] [docAt 1, docAt 2, ordinaryAt 3, docAt 5] = [docAt 5] :=
  ⟨feedComments_after_ordinary [] Xs Ys O hOrd hNotMarker, by decide⟩

/-- Witness for claim C3: the ordinary comment of line 3 between the
documentation comments of lines 1, 2 and that of line 5. -/
theorem ordinary_comment_clears_history_witness :
    feedComments [] ([docAt 1, docAt 2] ++ [ordinaryAt 3] ++ [docAt 5])
      = feedComments [] [docAt 5] :=
  (ordinary_comment_clears_history [docAt 1, docAt 2] [docAt 5] (ordinaryAt 3)
    (by decide) (by decide)).1

/-- Claim C4: generated-source line markers are transparent to merging: a merger
step on an ordinary comment whose text starts with `// ###` leaves every buffer
unchanged, so for every sequence of comments (and every starting buffer) the kept
group equals the kept group of the sequence with all such markers removed. -/
theorem line_markers_transparent :
    (∀ (Comments : List SingleRawComment) (M : SingleRawComment),
        M.isOrdinary = true → startswith M.RawText gybMarker = true →
        addCommentToList Comments M = Comments)
    ∧ (∀ Comments Units : List SingleRawComment,
        feedComments Comments Units = feedComments Comments (nonMarkers Units)) := by
  refine ⟨?_, feedComments_nonMarkers⟩
  intro Comments M hO hS
  exact addCommentToList_marker Comments M (by simp [SingleRawComment.isLineMarker, hO, hS])

/-- Witness for claim C4: a line marker offered to the buffer holding the
documentation comment of line 1. -/
theorem line_markers_transparent_witness :
    addCommentToList [docAt 1] (markerAt 2) = [docAt 1] :=
  line_markers_transparent.1 [docAt 1] (markerAt 2) (by decide) (by decide)

/-- Claim C5, refuted as stated: a documentation comment on line 1, a line marker
on line 2 and a documentation comment on line 3 leave the merger with the empty
group, not with the two documentation comments. -/
theorem marker_between_docs_counterexample :
    (markerAt 2).isLineMarker = true
    ∧ feedComments [] [docAt 1, markerAt 2, docAt 3] = []
    ∧ feedComments [] [docAt 1, markerAt 2, docAt 3] ≠ [docAt 1, docAt 3] := by
  decide

/-- Claim C5, amended: for a documentation comment `D1`, followed by a line
marker, followed by a documentation comment `D2`, the marker leaves the buffer
alone and the adjacency test is then made between `D1` and `D2`: with the end
line of `D1` below the `unsigned` maximum, the final kept group is empty when
`D1.EndLine + 1 < D2.StartLine`, and is `D1, D2` in that order otherwise (in
general the test is made on the `unsigned` sum).  For documentation comments on
lines 1 and 3 with the marker on line 2 it is empty; on lines 1 and 2 both are
kept. -/
theorem marker_between_docs (D1 M D2 : SingleRawComment)
    (hD1 : D1.isOrdinary = false) (hM : M.isLineMarker = true)
    (hD2 : D2.isOrdinary = false) :
    feedComments [] [D1, M, D2]
      = (if (D1.EndLine + 1) % 4294967296 < D2.StartLine then [] else [D1, D2])
    ∧ (D1.EndLine + 1 < 4294967296 →
        feedComments [] [D1, M, D2]
          = (if D1.EndLine + 1 < D2.StartLine then [] else [D1, D2]))
    ∧ feedComments [] [docAt 1, markerAt 2, docAt 3] = []
    ∧ feedComments [] [docAt 1, markerAt 2, docAt 2] = [docAt 1, docAt 2] := by
  have hStep : feedComments [] [D1, M, D2]
      = (if (D1.EndLine + 1) % 4294967296 < D2.StartLine then [] else [D1, D2]) := by
    show addCommentToList (addCommentToList (addCommentToList [] D1) M) D2 = _
    rw [addCommentToList_doc_nil D1 hD1, addCommentToList_marker _ M hM,
      addCommentToList_doc_last [D1] D1 D2 rfl hD2]
    rfl
  refine ⟨hStep, ?_, by decide, by decide⟩
  intro hBound
  rw [hStep, Nat.mod_eq_of_lt hBound]

/-- Witness for claim C5: the documentation comments of lines 1 and 3 around the
line marker of line 2. -/
theorem marker_between_docs_witness :
    feedComments [] [docAt 1, markerAt 2, docAt 3]
      = (if (docAt 1).EndLine + 1 < (docAt 3).StartLine then [] else [docAt 1, docAt 3]) :=
  (marker_between_docs (docAt 1) (markerAt 2) (docAt 3) (by decide) (by decide)
    (by decide)).2.1 (by decide)

/-! ## Lemmas on the classifier -/

theorem startswith_two (Text : StringRef) (x y : Char) :
    startswith Text [x, y] = (Text[0]? == some x && Text[1]? == some y) := by
  rcases Text with _ | ⟨a, _ | ⟨b, rest⟩⟩
  · simp [startswith]
  · simp [startswith]
  · by_cases ha : a = x <;> by_cases hb : b = y <;> simp [startswith, ha, hb]

theorem getCommentKind_short (Comment : StringRef) (h : Comment.length < 2) :
    getCommentKind Comment = none := by
  simp [getCommentKind, h]

theorem getCommentKind_line (Comment : StringRef)
    (h : startswith Comment ['/', '/'] = true) :
    getCommentKind Comment
      = if Comment[2]? = some '/' then some CommentKind.LineDoc
        else some CommentKind.OrdinaryLine := by
  rw [startswith_two] at h
  simp only [Bool.and_eq_true, beq_iff_eq] at h
  obtain ⟨h0, h1⟩ := h
  have hlen : ¬ Comment.length < 2 := by
    intro hl
    have : Comment[1]? = none := List.getElem?_eq_none (by omega)
    rw [this] at h1
    cases h1
  unfold getCommentKind
  rw [if_neg hlen, if_neg (by simp [h0]), if_pos h1]
  by_cases h3 : Comment.length < 3
  · have : Comment[2]? = none := List.getElem?_eq_none (by omega)
    simp [h3, this]
  · simp [h3]

theorem getCommentKind_block (Comment : StringRef)
    (h : startswith Comment ['/', '*'] = true) :
    getCommentKind Comment
      = if Comment.length < 4 then none
        else if Comment[2]? = some '*' then some CommentKind.BlockDoc
        else some CommentKind.OrdinaryBlock := by
  rw [startswith_two] at h
  simp only [Bool.and_eq_true, beq_iff_eq] at h
  obtain ⟨h0, h1⟩ := h
  have hlen : ¬ Comment.length < 2 := by
    intro hl
    have : Comment[1]? = none := List.getElem?_eq_none (by omega)
    rw [this] at h1
    cases h1
  unfold getCommentKind
  rw [if_neg hlen, if_neg (by simp [h0]), if_neg (by simp [h1]), if_neg (by simp [h1])]

theorem getCommentKind_other (Comment : StringRef)
    (hL : startswith Comment ['/', '/'] = false)
    (hB : startswith Comment ['/', '*'] = false) :
    getCommentKind Comment = none := by
  rw [startswith_two] at hL hB
  unfold getCommentKind
  by_cases hlen : Comment.length < 2
  · rw [if_pos hlen]
  · rw [if_neg hlen]
    by_cases h0 : Comment[0]? = some '/'
    · rw [if_neg (by simp [h0])]
      have h1 : ¬ Comment[1]? = some '/' := by
        intro h1
        simp [h0, h1] at hL
      have h2 : ¬ Comment[1]? = some '*' := by
        intro h2
        simp [h0, h2] at hB
      rw [if_neg h1, if_pos h2]
    · rw [if_pos h0]

theorem getCommentKind_eq_reference (Comment : StringRef)
    (hWF : isWellFormedComment Comment = true) :
    getCommentKind Comment = referenceKind Comment := by
  by_cases hL : startswith Comment ['/', '/'] = true
  · rw [getCommentKind_line Comment hL]
    unfold referenceKind
    rw [if_pos hL]
    by_cases h2 : Comment[2]? = some '/'
    · have h3 : 3 ≤ Comment.length := by
        by_contra hlt
        have : Comment[2]? = none := List.getElem?_eq_none (by omega)
        rw [this] at h2
        cases h2
      rw [if_pos h2, if_pos ⟨h3, h2⟩]
    · rw [if_neg h2, if_neg (fun h => h2 h.2)]
  · have hB : startswith Comment ['/', '*'] = true ∧ 4 ≤ Comment.length := by
      simpa [isWellFormedComment, hL] using hWF
    rw [getCommentKind_block Comment hB.1]
    unfold referenceKind
    rw [if_neg hL, if_pos hB.1, if_neg (by omega)]

theorem startswith_two_take (Comment : StringRef) (x y : Char) :
    startswith (Comment.take 3) [x, y] = startswith Comment [x, y] := by
  rw [startswith_two, startswith_two]
  rcases Comment with _ | ⟨a, _ | ⟨b, _ | ⟨c, rest⟩⟩⟩ <;> simp

theorem referenceKind_take (Comment : StringRef) :
    referenceKind (Comment.take 3) = referenceKind Comment := by
  unfold referenceKind
  rw [startswith_two_take, startswith_two_take]
  rcases Comment with _ | ⟨a, _ | ⟨b, _ | ⟨c, rest⟩⟩⟩ <;> simp

theorem getCommentKind_isSome (Comment : StringRef) :
    (getCommentKind Comment).isSome = isWellFormedComment Comment := by
  by_cases hL : startswith Comment ['/', '/'] = true
  · rw [getCommentKind_line Comment hL]
    simp only [isWellFormedComment, hL, Bool.true_or]
    split <;> rfl
  · by_cases hB : startswith Comment ['/', '*'] = true
    · rw [getCommentKind_block Comment hB]
      by_cases h4 : Comment.length < 4
      · have : ¬ 4 ≤ Comment.length := by omega
        simp [isWellFormedComment, hL, hB, h4, this]
      · have : 4 ≤ Comment.length := by omega
        rw [if_neg h4]
        have hwf : isWellFormedComment Comment = true := by
          simp [isWellFormedComment, hB, this]
        rw [hwf]
        split <;> rfl
    · rw [getCommentKind_other Comment (by simpa using hL) (by simpa using hB)]
      simp [isWellFormedComment, hL, hB]

/-! ## The classifier: claims C6 and C7 -/

/-- Claim C6: on every well-formed comment text the classifier returns a kind and
that kind is the one of the reference rule: a text starting with `//` is a
documentation line comment iff it has at least 3 characters and its third
character is `/`, and an ordinary line comment otherwise; a text starting with
`/*` is a documentation block comment iff its third character is `*`, and an
ordinary block comment otherwise.  The result depends on no character after the
third: well-formed texts with the same first three characters get the same kind.
So `//` and `// x` are ordinary line comments, `/// x` is a documentation line
comment, `/* x */` an ordinary block comment and `/** x */` a documentation block
comment. -/
theorem getCommentKind_matches_reference (Comment : StringRef)
    (hWF : isWellFormedComment Comment = true) :
    getCommentKind Comment = referenceKind Comment
    ∧ (∃ K, getCommentKind Comment = some K)
    ∧ (∀ Other : StringRef, isWellFormedComment Other = true →
        Other.take 3 = Comment.take 3 → getCommentKind Other = getCommentKind Comment)
    ∧ getCommentKind ['/', '/'] = some CommentKind.OrdinaryLine
    ∧ getCommentKind ['/', '/', ' ', 'x'] = some CommentKind.OrdinaryLine
    ∧ getCommentKind ['/', '/', '/', ' ', 'x'] = some CommentKind.LineDoc
    ∧ getCommentKind ['/', '*', ' ', 'x', ' ', '*', '/'] = some CommentKind.OrdinaryBlock
    ∧ getCommentKind ['/', '*', '*', ' ', 'x', ' ', '*', '/'] = some CommentKind.BlockDoc := by
  refine ⟨getCommentKind_eq_reference Comment hWF, ?_, ?_,
    by decide, by decide, by decide, by decide, by decide⟩
  · have h := getCommentKind_isSome Comment
    rw [hWF] at h
    exact Option.isSome_iff_exists.mp h
  · intro Other hO hTake
    rw [getCommentKind_eq_reference Other hO, getCommentKind_eq_reference Comment hWF,
      ← referenceKind_take Other, ← referenceKind_take Comment, hTake]

/-- Witness for claim C6: the documentation block comment `/** x */`. -/
theorem getCommentKind_matches_reference_witness :
    getCommentKind ['/', '*', '*', ' ', 'x', ' ', '*', '/']
      = referenceKind ['/', '*', '*', ' ', 'x', ' ', '*', '/'] :=
  (getCommentKind_matches_reference ['/', '*', '*', ' ', 'x', ' ', '*', '/'] (by decide)).1

/-- Claim C7, refuted as stated: the texts `/**` and `/*` have at least 2
characters and begin with a comment-start marker, yet the classifier trips an
assertion on them; so it does on `/x`. -/
theorem getCommentKind_aborts_on_short_block :
    2 ≤ ['/', '*', '*'].length
    ∧ startswith ['/', '*', '*'] ['/', '*'] = true
    ∧ getCommentKind ['/', '*', '*'] = none
    ∧ getCommentKind ['/', '*'] = none
    ∧ getCommentKind ['/', 'x'] = none := by
  decide

/-- Claim C7, amended: the classifier returns one of the four kinds, no assertion
failing, exactly on the texts that begin with `//` or that begin with `/*` and
have at least 4 characters; on every other text an assertion fails. -/
theorem getCommentKind_returns_iff (Comment : StringRef) :
    (∃ K, getCommentKind Comment = some K)
      ↔ (startswith Comment ['/', '/'] = true
          ∨ (startswith Comment ['/', '*'] = true ∧ 4 ≤ Comment.length)) := by
  rw [← Option.isSome_iff_exists, getCommentKind_isSome]
  simp [isWellFormedComment]

/-! ## Lemmas on the resolver -/

theorem toRawComment_cache_irrelevant (Context : ASTContext) (F : RawCommentCache)
    (Range : CharSourceRange) :
    toRawComment { Context with RawComments := F } Range = toRawComment Context Range :=
  rfl

theorem getRawCommentFromUnit_fst (D : Decl) (Context : ASTContext) (F : RawCommentCache)
    (Unit : FileUnit) :
    (D.getRawCommentFromUnit { Context with RawComments := F } Unit).map Prod.fst
      = (D.getRawCommentFromUnit Context Unit).map Prod.fst := by
  unfold Decl.getRawCommentFromUnit
  cases Unit.getCommentForDecl D.ID <;> rfl

theorem getRawCommentInUnit_fst (D : Decl) (Context : ASTContext) (F : RawCommentCache)
    (SerializedOK : Bool) (Unit : FileUnit) :
    (D.getRawCommentInUnit { Context with RawComments := F } SerializedOK Unit).map Prod.fst
      = (D.getRawCommentInUnit Context SerializedOK Unit).map Prod.fst := by
  unfold Decl.getRawCommentInUnit
  cases Unit.Kind <;> try rfl
  cases SerializedOK
  · exact getRawCommentFromUnit_fst D Context F Unit
  · simp only [if_true]
    cases D.getSerializedLocs with
    | none => exact getRawCommentFromUnit_fst D Context F Unit
    | some CachedLocs =>
      simp only
      by_cases hE : (!CachedLocs.DocRanges.isEmpty) = true
      · simp only [hE, if_true]
        cases collectDocRanges Context.SourceMgr CachedLocs.DocRanges [] with
        | none => rfl
        | some SRCs =>
          simp only
          by_cases hR : (!(RawComment.mk SRCs).isEmpty) = true
          · simp only [hR, if_true]
            rfl
          · simp only [hR]
            exact getRawCommentFromUnit_fst D Context F Unit
      · simp only [hE]
        exact getRawCommentFromUnit_fst D Context F Unit

theorem getRawCommentUncached_fst (D : Decl) (Context : ASTContext) (F : RawCommentCache)
    (SerializedOK : Bool) :
    (D.getRawCommentUncached { Context with RawComments := F } SerializedOK).map Prod.fst
      = (D.getRawCommentUncached Context SerializedOK).map Prod.fst := by
  unfold Decl.getRawCommentUncached
  cases D.RawDocCommentAttr with
  | some Range =>
    simp only [toRawComment_cache_irrelevant]
    cases toRawComment Context Range <;> rfl
  | none =>
    simp only
    cases D.getDeclContext with
    | none => rfl
    | some DC =>
      simp only
      cases DC.getModuleScopeContext.asFileUnit with
      | none => rfl
      | some Unit => exact getRawCommentInUnit_fst D Context F SerializedOK Unit

theorem getRawComment_of_miss (D : Decl) (Context : ASTContext) (SerializedOK : Bool)
    (hCan : D.canHaveComment = true)
    (hMiss : ∀ P, Context.getRawComment D.ID = some P → SerializedOK = true ∧ P.2 = false) :
    D.getRawComment Context SerializedOK = D.getRawCommentUncached Context SerializedOK := by
  unfold Decl.getRawComment
  simp only [hCan, Bool.not_true, Bool.false_eq_true, if_false]
  cases hC : Context.getRawComment D.ID with
  | none => rfl
  | some P =>
    obtain ⟨h1, h2⟩ := hMiss P hC
    simp [h1, h2]

theorem toRawComment_sample (Entry : Option (RawComment × Bool)) :
    toRawComment (sampleContext Entry) ⟨⟨1000⟩, 12⟩
      = some ⟨[{ Range := ⟨⟨1000⟩, 5⟩
                 RawText := ['/', '/', '/', ' ', 'a']
                 Kind := CommentKind.LineDoc
                 StartColumn := 1
                 StartLine := 1
                 EndLine := 1 },
               { Range := ⟨⟨1006⟩, 5⟩
                 RawText := ['/', '/', '/', ' ', 'b']
                 Kind := CommentKind.LineDoc
                 StartColumn := 1
                 StartLine := 2
                 EndLine := 2 }]⟩ := by
  rfl

/-! ## The resolver's cache: claims C8 to C10 -/

/-- Claim C8: for every declaration that can carry documentation and whose cache
entry is `(C, true)`, the resolver returns `C` in both lookup modes and leaves
the context, cache included, as it was; the result is the same whatever the
declaration's attribute, file unit and serialized locations and whatever the
source manager and the tokenizer are, so nothing is recomputed.  Hence when a
strict resolution ends in a context that holds `(C, true)` for the declaration, a
relaxed query in that context returns the identical result. -/
theorem getRawComment_authoritative_hit (D : Decl) (Context : ASTContext) (C : RawComment)
    (hCan : D.canHaveComment = true)
    (hHit : Context.getRawComment D.ID = some (C, true)) :
    (∀ SerializedOK : Bool, D.getRawComment Context SerializedOK = some (C, Context))
    ∧ (∀ (D2 : Decl) (Context2 : ASTContext) (SerializedOK : Bool),
        D2.ID = D.ID → D2.canHaveComment = true →
        Context2.RawComments = Context.RawComments →
        D2.getRawComment Context2 SerializedOK = some (C, Context2))
    ∧ (∀ Before : ASTContext, D.getRawComment Before true = some (C, Context) →
        D.getRawComment Context false = some (C, Context)) := by
  have key : ∀ (D2 : Decl) (Context2 : ASTContext) (SerializedOK : Bool),
      D2.canHaveComment = true → Context2.getRawComment D2.ID = some (C, true) →
      D2.getRawComment Context2 SerializedOK = some (C, Context2) := by
    intro D2 Context2 SerializedOK h1 h2
    unfold Decl.getRawComment
    simp [h1, h2]
  refine ⟨fun S => key D Context S hCan hHit, ?_, fun _ _ => key D Context false hCan hHit⟩
  intro D2 Context2 S hID hCan2 hCache
  apply key D2 Context2 S hCan2
  unfold ASTContext.getRawComment at hHit ⊢
  rw [hCache, hID]
  exact hHit

/-- Witness for claim C8: declaration 7 with the cache entry
`(sampleGroup, true)`, queried in strict and in relaxed mode. -/
theorem getRawComment_authoritative_hit_witness :
    sampleDecl.getRawComment (sampleContext (some (sampleGroup, true))) true
      = some (sampleGroup, sampleContext (some (sampleGroup, true)))
    ∧ sampleDecl.getRawComment (sampleContext (some (sampleGroup, true))) false
      = some (sampleGroup, sampleContext (some (sampleGroup, true))) :=
  ⟨(getRawComment_authoritative_hit sampleDecl (sampleContext (some (sampleGroup, true)))
      sampleGroup rfl rfl).1 true,
   (getRawComment_authoritative_hit sampleDecl (sampleContext (some (sampleGroup, true)))
      sampleGroup rfl rfl).1 false⟩

/-- Claim C9: for every declaration that can carry documentation and whose cache
entry is `(C, false)`, a relaxed lookup returns `C` and leaves the context, cache
included, as it was, while a strict lookup does not take the entry as a hit: it
goes on to the attribute and file-unit paths, and returns exactly the result the
strict lookup returns when the cache holds no entry for that declaration. -/
theorem getRawComment_best_effort_hit (D : Decl) (Context : ASTContext) (C : RawComment)
    (hCan : D.canHaveComment = true)
    (hHit : Context.getRawComment D.ID = some (C, false)) :
    D.getRawComment Context false = some (C, Context)
    ∧ D.getRawComment Context true = D.getRawCommentUncached Context true
    ∧ (D.getRawComment Context true).map Prod.fst
        = (D.getRawComment (Context.withoutRawComment D.ID) true).map Prod.fst := by
  have h2 : D.getRawComment Context true = D.getRawCommentUncached Context true := by
    apply getRawComment_of_miss D Context true hCan
    intro P hP
    rw [hHit] at hP
    cases hP
    exact ⟨rfl, rfl⟩
  refine ⟨?_, h2, ?_⟩
  · unfold Decl.getRawComment
    simp [hCan, hHit]
  · rw [h2, getRawComment_of_miss D (Context.withoutRawComment D.ID) true hCan]
    · exact (getRawCommentUncached_fst D Context _ true).symm
    · intro P hP
      simp [ASTContext.getRawComment, ASTContext.withoutRawComment] at hP

/-- Witness for claim C9: declaration 7 with the cache entry
`(sampleGroup, false)`: the relaxed lookup returns the entry, the strict lookup
returns what it returns from an empty cache entry. -/
theorem getRawComment_best_effort_hit_witness :
    sampleDecl.getRawComment (sampleContext (some (sampleGroup, false))) false
      = some (sampleGroup, sampleContext (some (sampleGroup, false)))
    ∧ (sampleDecl.getRawComment (sampleContext (some (sampleGroup, false))) true).map Prod.fst
      = (sampleDecl.getRawComment
          ((sampleContext (some (sampleGroup, false))).withoutRawComment sampleDecl.ID)
          true).map Prod.fst :=
  ⟨(getRawComment_best_effort_hit sampleDecl (sampleContext (some (sampleGroup, false)))
      sampleGroup rfl rfl).1,
   (getRawComment_best_effort_hit sampleDecl (sampleContext (some (sampleGroup, false)))
      sampleGroup rfl rfl).2.2⟩

/-- Claim C10: for every declaration that can carry documentation, has no usable
cache entry for the requested mode (no entry, or a strict lookup and an entry
whose flag is false) and carries a raw-doc-comment attribute, the resolver in
either mode returns exactly the range scanner's result for the attribute's
range, whatever the declaration's file unit is, and the cache afterwards maps the
declaration to that result with the flag true, every other entry unchanged; the
resolver aborts only when the scanner does. -/
theorem getRawComment_attribute_path (D : Decl) (Context : ASTContext) (SerializedOK : Bool)
    (Range : CharSourceRange)
    (hCan : D.canHaveComment = true)
    (hMiss : ∀ P, Context.getRawComment D.ID = some P → SerializedOK = true ∧ P.2 = false)
    (hAttr : D.RawDocCommentAttr = some Range) :
    D.getRawComment Context SerializedOK
      = (toRawComment Context Range).map
          (fun Result => (Result, Context.setRawComment D.ID Result true))
    ∧ (∀ Result After, D.getRawComment Context SerializedOK = some (Result, After) →
        toRawComment Context Range = some Result
        ∧ After.getRawComment D.ID = some (Result, true)
        ∧ ∀ K, K ≠ D.ID → After.getRawComment K = Context.getRawComment K) := by
  have h1 : D.getRawComment Context SerializedOK
      = (toRawComment Context Range).map
          (fun Result => (Result, Context.setRawComment D.ID Result true)) := by
    rw [getRawComment_of_miss D Context SerializedOK hCan hMiss]
    unfold Decl.getRawCommentUncached
    rw [hAttr]
    cases hT : toRawComment Context Range <;> simp [hT]
  refine ⟨h1, ?_⟩
  intro Result After hR
  rw [h1] at hR
  cases hT : toRawComment Context Range with
  | none =>
    rw [hT] at hR
    cases hR
  | some R =>
    rw [hT] at hR
    simp only [Option.map_some', Option.some.injEq, Prod.mk.injEq] at hR
    obtain ⟨hRes, hAfter⟩ := hR
    subst hRes
    subst hAfter
    refine ⟨rfl, ?_, ?_⟩
    · simp [ASTContext.getRawComment, ASTContext.setRawComment]
    · intro K hK
      simp [ASTContext.getRawComment, ASTContext.setRawComment, hK]

/-- Witness for claim C10: declaration 7, whose attribute covers the two sample
comments, resolved in strict mode from a cache whose entry has the flag false. -/
theorem getRawComment_attribute_path_witness :
    sampleDecl.getRawComment (sampleContext (some (sampleGroup, false))) true
      = (toRawComment (sampleContext (some (sampleGroup, false))) ⟨⟨1000⟩, 12⟩).map
          (fun Result =>
            (Result,
             (sampleContext (some (sampleGroup, false))).setRawComment sampleDecl.ID Result true)) :=
  (getRawComment_attribute_path sampleDecl (sampleContext (some (sampleGroup, false))) true
    ⟨⟨1000⟩, 12⟩ rfl
    (by
      intro P hP
      have hP2 : some (sampleGroup, false) = some P := hP
      cases hP2
      exact ⟨rfl, rfl⟩)
    rfl).1

/-! ## Lemmas on the file-unit paths -/

theorem ofRange_range (Range : CharSourceRange) (SourceMgr : SourceManager)
    (U : SingleRawComment) (h : SingleRawComment.ofRange Range SourceMgr = some U) :
    U.Range = Range := by
  unfold SingleRawComment.ofRange at h
  cases hK : getCommentKind (SourceMgr.extractText Range) with
  | none => simp [hK] at h
  | some K =>
    simp only [hK, Option.some.injEq] at h
    rw [← h]

theorem ofRange_all_ranges (SourceMgr : SourceManager) (Ranges : List CharSourceRange)
    (Us : List SingleRawComment)
    (h : List.Forall₂ (fun R U => SingleRawComment.ofRange R SourceMgr = some U) Ranges Us) :
    Us.map (fun U => U.Range) = Ranges := by
  induction h with
  | nil => rfl
  | cons hHead _ ih =>
    simp only [List.map_cons, ofRange_range _ _ _ hHead, List.cons.injEq, true_and]
    exact ih

theorem ofRange_isSome (Range : CharSourceRange) (SourceMgr : SourceManager) :
    (SingleRawComment.ofRange Range SourceMgr).isSome
      = (getCommentKind (SourceMgr.extractText Range)).isSome := by
  unfold SingleRawComment.ofRange
  cases getCommentKind (SourceMgr.extractText Range) <;> rfl

theorem collectDocRanges_valid (SourceMgr : SourceManager) (Ranges : List CharSourceRange)
    (Acc Out : List SingleRawComment)
    (hValid : ∀ R ∈ Ranges, R.isValid = true)
    (h : collectDocRanges SourceMgr Ranges Acc = some Out) :
    ∃ Us, Out = Acc ++ Us
      ∧ List.Forall₂ (fun R U => SingleRawComment.ofRange R SourceMgr = some U) Ranges Us := by
  induction Ranges generalizing Acc with
  | nil =>
    simp only [collectDocRanges, Option.some.injEq] at h
    exact ⟨[], by simp [h], List.Forall₂.nil⟩
  | cons R Rest ih =>
    have hR : R.isValid = true := hValid R (List.mem_cons_self _ _)
    simp only [collectDocRanges, hR, if_true] at h
    cases hU : SingleRawComment.ofRange R SourceMgr with
    | none => simp [hU] at h
    | some U =>
      simp only [hU] at h
      obtain ⟨Us, hOut, hAll⟩ :=
        ih (Acc ++ [U]) (fun X hX => hValid X (List.mem_cons_of_mem _ hX)) h
      exact ⟨U :: Us, by simp [hOut], List.Forall₂.cons hU hAll⟩

theorem collectDocRanges_returns (SourceMgr : SourceManager) (Ranges : List CharSourceRange)
    (Acc : List SingleRawComment)
    (hValid : ∀ R ∈ Ranges, R.isValid = true)
    (hText : ∀ R ∈ Ranges, (getCommentKind (SourceMgr.extractText R)).isSome = true) :
    ∃ Out, collectDocRanges SourceMgr Ranges Acc = some Out := by
  induction Ranges generalizing Acc with
  | nil => exact ⟨Acc, rfl⟩
  | cons R Rest ih =>
    have hR : R.isValid = true := hValid R (List.mem_cons_self _ _)
    have hT := hText R (List.mem_cons_self _ _)
    rw [← ofRange_isSome] at hT
    obtain ⟨U, hU⟩ := Option.isSome_iff_exists.mp hT
    simp only [collectDocRanges, hR, if_true, hU]
    exact ih (Acc ++ [U]) (fun X hX => hValid X (List.mem_cons_of_mem _ hX))
      (fun X hX => hText X (List.mem_cons_of_mem _ hX))

theorem collectDocRanges_invalid (SourceMgr : SourceManager) (Ranges : List CharSourceRange)
    (Acc Out : List SingleRawComment)
    (hInv : ∃ R ∈ Ranges, R.isValid = false)
    (h : collectDocRanges SourceMgr Ranges Acc = some Out) : Out = [] := by
  induction Ranges generalizing Acc with
  | nil =>
    obtain ⟨R, hR, _⟩ := hInv
    cases hR
  | cons R Rest ih =>
    by_cases hR : R.isValid = true
    · simp only [collectDocRanges, hR, if_true] at h
      cases hU : SingleRawComment.ofRange R SourceMgr with
      | none => simp [hU] at h
      | some U =>
        simp only [hU] at h
        apply ih (Acc ++ [U]) _ h
        obtain ⟨X, hX, hXv⟩ := hInv
        rcases List.mem_cons.mp hX with h1 | h1
        · rw [h1, hR] at hXv
          cases hXv
        · exact ⟨X, h1, hXv⟩
    · simp only [collectDocRanges, hR, Bool.false_eq_true, if_false, Option.some.injEq] at h
      exact h.symm

theorem collectDocRanges_invalid_returns (SourceMgr : SourceManager)
    (Ranges : List CharSourceRange) (Acc : List SingleRawComment)
    (hInv : ∃ R ∈ Ranges, R.isValid = false)
    (hText : ∀ R ∈ Ranges.takeWhile (fun R => R.isValid),
      (getCommentKind (SourceMgr.extractText R)).isSome = true) :
    collectDocRanges SourceMgr Ranges Acc = some [] := by
  induction Ranges generalizing Acc with
  | nil =>
    obtain ⟨R, hR, _⟩ := hInv
    cases hR
  | cons R Rest ih =>
    by_cases hR : R.isValid = true
    · have hT := hText R (by simp [List.takeWhile_cons, hR])
      rw [← ofRange_isSome] at hT
      obtain ⟨U, hU⟩ := Option.isSome_iff_exists.mp hT
      simp only [collectDocRanges, hR, if_true, hU]
      apply ih (Acc ++ [U])
      · obtain ⟨X, hX, hXv⟩ := hInv
        rcases List.mem_cons.mp hX with h1 | h1
        · rw [h1, hR] at hXv
          cases hXv
        · exact ⟨X, h1, hXv⟩
      · intro X hX
        exact hText X (by simp [List.takeWhile_cons, hR, hX])
    · simp [collectDocRanges, hR]

theorem getRawComment_in_unit (D : Decl) (Context : ASTContext) (SerializedOK : Bool)
    (DC : DeclContext) (Unit : FileUnit)
    (hCan : D.canHaveComment = true)
    (hMiss : ∀ P, Context.getRawComment D.ID = some P → SerializedOK = true ∧ P.2 = false)
    (hAttr : D.RawDocCommentAttr = none)
    (hDC : D.getDeclContext = some DC)
    (hUnit : DC.getModuleScopeContext.asFileUnit = some Unit) :
    D.getRawComment Context SerializedOK = D.getRawCommentInUnit Context SerializedOK Unit := by
  rw [getRawComment_of_miss D Context SerializedOK hCan hMiss]
  unfold Decl.getRawCommentUncached
  simp only [hAttr, hDC, hUnit]

theorem getRawCommentFromUnit_cases (D : Decl) (Context : ASTContext) (Unit : FileUnit) :
    (∀ C, Unit.getCommentForDecl D.ID = some C →
      D.getRawCommentFromUnit Context Unit
        = some (C.Raw, Context.setRawComment D.ID C.Raw false))
    ∧ (Unit.getCommentForDecl D.ID = none →
      D.getRawCommentFromUnit Context Unit = some (RawComment.empty, Context)) := by
  unfold Decl.getRawCommentFromUnit
  constructor
  · intro C hC
    simp [hC]
  · intro hC
    simp [hC]

theorem getRawCommentFromUnit_writes (D : Decl) (Context : ASTContext) (Unit : FileUnit)
    (R : RawComment) (After : ASTContext)
    (h : D.getRawCommentFromUnit Context Unit = some (R, After)) :
    After = Context ∨ After = Context.setRawComment D.ID R false := by
  unfold Decl.getRawCommentFromUnit at h
  cases hC : Unit.getCommentForDecl D.ID with
  | none =>
    simp only [hC, Option.some.injEq, Prod.mk.injEq] at h
    exact Or.inl h.2.symm
  | some C =>
    simp only [hC, Option.some.injEq, Prod.mk.injEq] at h
    obtain ⟨h1, h2⟩ := h
    subst h1
    exact Or.inr h2.symm

theorem getRawCommentInUnit_writes (D : Decl) (Context : ASTContext) (SerializedOK : Bool)
    (Unit : FileUnit) (R : RawComment) (After : ASTContext)
    (h : D.getRawCommentInUnit Context SerializedOK Unit = some (R, After)) :
    After = Context
      ∨ ((∃ F, After = Context.setRawComment D.ID R F)
          ∧ Unit.Kind = FileUnitKind.SerializedAST) := by
  unfold Decl.getRawCommentInUnit at h
  cases hK : Unit.Kind <;> simp only [hK, Option.some.injEq, Prod.mk.injEq] at h <;>
    try exact Or.inl h.2.symm
  have hFrom : ∀ {X : Option (RawComment × ASTContext)},
      X = D.getRawCommentFromUnit Context Unit → X = some (R, After) →
      After = Context ∨ ((∃ F, After = Context.setRawComment D.ID R F) ∧ True) := by
    intro X hX hR
    rw [hX] at hR
    rcases getRawCommentFromUnit_writes D Context Unit R After hR with h1 | h1
    · exact Or.inl h1
    · exact Or.inr ⟨⟨false, h1⟩, trivial⟩
  have fin : After = Context ∨ ((∃ F, After = Context.setRawComment D.ID R F) ∧ True) := by
    cases SerializedOK
    · exact hFrom rfl h
    · simp only [if_true] at h
      cases hL : D.getSerializedLocs with
      | none =>
        simp only [hL] at h
        exact hFrom rfl h
      | some CachedLocs =>
        simp only [hL] at h
        by_cases hE : (!CachedLocs.DocRanges.isEmpty) = true
        · simp only [hE, if_true] at h
          cases hCol : collectDocRanges Context.SourceMgr CachedLocs.DocRanges [] with
          | none => simp [hCol] at h
          | some SRCs =>
            simp only [hCol] at h
            by_cases hR : (!(RawComment.mk SRCs).isEmpty) = true
            · simp only [hR, if_true, Option.some.injEq, Prod.mk.injEq] at h
              obtain ⟨h1, h2⟩ := h
              subst h1
              exact Or.inr ⟨⟨true, h2.symm⟩, trivial⟩
            · simp only [hR] at h
              exact hFrom rfl h
        · simp only [hE] at h
          exact hFrom rfl h
  rcases fin with h1 | ⟨h1, _⟩
  · exact Or.inl h1
  · exact Or.inr ⟨h1, rfl⟩

theorem getRawCommentUncached_writes (D : Decl) (Context : ASTContext) (SerializedOK : Bool)
    (R : RawComment) (After : ASTContext)
    (h : D.getRawCommentUncached Context SerializedOK = some (R, After)) :
    After = Context
      ∨ ((∃ F, After = Context.setRawComment D.ID R F)
          ∧ (D.RawDocCommentAttr.isSome = true
              ∨ ∃ DC Unit, D.getDeclContext = some DC
                  ∧ DC.getModuleScopeContext.asFileUnit = some Unit
                  ∧ Unit.Kind = FileUnitKind.SerializedAST)) := by
  unfold Decl.getRawCommentUncached at h
  cases hA : D.RawDocCommentAttr with
  | some Range =>
    simp only [hA] at h
    cases hT : toRawComment Context Range with
    | none => simp [hT] at h
    | some Result =>
      simp only [hT, Option.some.injEq, Prod.mk.injEq] at h
      obtain ⟨h1, h2⟩ := h
      subst h1
      exact Or.inr ⟨⟨true, h2.symm⟩, Or.inl rfl⟩
  | none =>
    simp only [hA] at h
    cases hDC : D.getDeclContext with
    | none =>
      simp only [hDC, Option.some.injEq, Prod.mk.injEq] at h
      exact Or.inl h.2.symm
    | some DC =>
      simp only [hDC] at h
      cases hU : DC.getModuleScopeContext.asFileUnit with
      | none =>
        simp only [hU, Option.some.injEq, Prod.mk.injEq] at h
        exact Or.inl h.2.symm
      | some Unit =>
        simp only [hU] at h
        rcases getRawCommentInUnit_writes D Context SerializedOK Unit R After h with h1 | h1
        · exact Or.inl h1
        · exact Or.inr ⟨h1.1, Or.inr ⟨DC, Unit, rfl, hU, h1.2⟩⟩

theorem getRawComment_writes (D : Decl) (Context : ASTContext) (SerializedOK : Bool)
    (R : RawComment) (After : ASTContext)
    (h : D.getRawComment Context SerializedOK = some (R, After)) :
    After = Context
      ∨ (D.canHaveComment = true
          ∧ (∀ C, Context.getRawComment D.ID ≠ some (C, true))
          ∧ (∃ F, After = Context.setRawComment D.ID R F)
          ∧ (D.RawDocCommentAttr.isSome = true
              ∨ ∃ DC Unit, D.getDeclContext = some DC
                  ∧ DC.getModuleScopeContext.asFileUnit = some Unit
                  ∧ Unit.Kind = FileUnitKind.SerializedAST)) := by
  unfold Decl.getRawComment at h
  by_cases hCan : D.canHaveComment = true
  · simp only [hCan, Bool.not_true, Bool.false_eq_true, if_false] at h
    cases hC : Context.getRawComment D.ID with
    | none =>
      simp only [hC] at h
      rcases getRawCommentUncached_writes D Context SerializedOK R After h with h1 | h1
      · exact Or.inl h1
      · exact Or.inr ⟨hCan, by simp, h1.1, h1.2⟩
    | some P =>
      simp only [hC] at h
      by_cases hHit : (!SerializedOK || P.2) = true
      · simp only [hHit, if_true, Option.some.injEq, Prod.mk.injEq] at h
        exact Or.inl h.2.symm
      · simp only [hHit] at h
        rcases getRawCommentUncached_writes D Context SerializedOK R After h with h1 | h1
        · exact Or.inl h1
        · refine Or.inr ⟨hCan, ?_, h1.1, h1.2⟩
          intro C hEq
          simp only [Option.some.injEq] at hEq
          apply hHit
          rw [hEq]
          simp
  · simp only [hCan, Bool.not_false, if_true, Option.some.injEq, Prod.mk.injEq] at h
    exact Or.inl h.2.symm

/-! ## The file-unit paths of the resolver: claims C11 to C13 -/

/-- Claim C11: for a strict lookup of a declaration that can carry documentation,
lives in a precompiled/serialized file unit, has no usable cache entry and no
raw-doc-comment attribute, if the precomputed doc-range table is present,
non-empty and every entry is valid, then a returned result has exactly one
comment per table entry, in table order, each built from its entry; no merge
pass is applied, and the cache afterwards holds the result with the flag true.
The lookup returns whenever the classifier accepts the text of every entry. -/
theorem getRawComment_fast_path (D : Decl) (Context : ASTContext) (DC : DeclContext)
    (Unit : FileUnit) (Locs : CachedDeclLocs)
    (hCan : D.canHaveComment = true)
    (hMiss : ∀ P, Context.getRawComment D.ID = some P → P.2 = false)
    (hAttr : D.RawDocCommentAttr = none)
    (hDC : D.getDeclContext = some DC)
    (hUnit : DC.getModuleScopeContext.asFileUnit = some Unit)
    (hKind : Unit.Kind = FileUnitKind.SerializedAST)
    (hLocs : D.getSerializedLocs = some Locs)
    (hNonEmpty : Locs.DocRanges ≠ [])
    (hValid : ∀ R ∈ Locs.DocRanges, R.isValid = true) :
    (∀ Result After, D.getRawComment Context true = some (Result, After) →
        List.Forall₂ (fun R U => SingleRawComment.ofRange R Context.SourceMgr = some U)
          Locs.DocRanges Result.Comments
        ∧ Result.Comments.length = Locs.DocRanges.length
        ∧ Result.Comments.map (fun U => U.Range) = Locs.DocRanges
        ∧ After = Context.setRawComment D.ID Result true
        ∧ After.getRawComment D.ID = some (Result, true))
    ∧ ((∀ R ∈ Locs.DocRanges,
          (getCommentKind (Context.SourceMgr.extractText R)).isSome = true) →
        ∃ Result After, D.getRawComment Context true = some (Result, After)) := by
  have hIn := getRawComment_in_unit D Context true DC Unit hCan
    (fun P hP => ⟨rfl, hMiss P hP⟩) hAttr hDC hUnit
  have hE : (!Locs.DocRanges.isEmpty) = true := by
    cases hL : Locs.DocRanges with
    | nil => exact absurd hL hNonEmpty
    | cons R Rest => rfl
  have hStep : D.getRawCommentInUnit Context true Unit
      = match collectDocRanges Context.SourceMgr Locs.DocRanges [] with
        | none => none
        | some SRCs =>
          if (!(RawComment.mk SRCs).isEmpty) = true then
            some (RawComment.mk SRCs, Context.setRawComment D.ID (RawComment.mk SRCs) true)
          else D.getRawCommentFromUnit Context Unit := by
    unfold Decl.getRawCommentInUnit
    simp only [hKind, hLocs, hE, if_true]
  have hNE : ∀ SRCs, collectDocRanges Context.SourceMgr Locs.DocRanges [] = some SRCs →
      List.Forall₂ (fun R U => SingleRawComment.ofRange R Context.SourceMgr = some U)
        Locs.DocRanges SRCs ∧ (!(RawComment.mk SRCs).isEmpty) = true := by
    intro SRCs hCol
    obtain ⟨Us, hOut, hAll⟩ :=
      collectDocRanges_valid Context.SourceMgr Locs.DocRanges [] SRCs hValid hCol
    rw [List.nil_append] at hOut
    subst hOut
    refine ⟨hAll, ?_⟩
    have hLen := hAll.length_eq
    cases hS : SRCs with
    | nil =>
      rw [hS] at hLen
      exact absurd (List.length_eq_zero.mp hLen) hNonEmpty
    | cons U Rest => rfl
  rw [hIn, hStep]
  constructor
  · intro Result After hR
    cases hCol : collectDocRanges Context.SourceMgr Locs.DocRanges [] with
    | none => simp [hCol] at hR
    | some SRCs =>
      obtain ⟨hAll, hNotEmpty⟩ := hNE SRCs hCol
      simp only [hCol, hNotEmpty, if_true, Option.some.injEq, Prod.mk.injEq] at hR
      obtain ⟨h1, h2⟩ := hR
      subst h1
      subst h2
      refine ⟨hAll, hAll.length_eq.symm, ?_, rfl, ?_⟩
      · exact ofRange_all_ranges _ _ _ hAll
      · simp [ASTContext.getRawComment, ASTContext.setRawComment]
  · intro hText
    obtain ⟨SRCs, hCol⟩ :=
      collectDocRanges_returns Context.SourceMgr Locs.DocRanges [] hValid hText
    obtain ⟨_, hNotEmpty⟩ := hNE SRCs hCol
    simp only [hCol, hNotEmpty, if_true]
    exact ⟨_, _, rfl⟩

/-- Witness for claim C11: declaration 8 in a serialized file unit, with the
three comments of the sample text as its doc-range table: the documentation
comment of line 1, the ordinary comment of line 2 and the documentation comment
of line 4 are all in the result, which a merge pass would have emptied. -/
theorem getRawComment_fast_path_witness :
    (∃ Result After,
        (declInUnit (sampleUnit FileUnitKind.SerializedAST none) (some ⟨gapRanges⟩)).getRawComment
          gapContext true = some (Result, After))
    ∧ (∀ Result After,
        (declInUnit (sampleUnit FileUnitKind.SerializedAST none) (some ⟨gapRanges⟩)).getRawComment
          gapContext true = some (Result, After) →
        Result.Comments.map (fun U => U.Range) = gapRanges)
    ∧ ((declInUnit (sampleUnit FileUnitKind.SerializedAST none) (some ⟨gapRanges⟩)).getRawComment
          gapContext true).map (fun P => P.1.Comments.map (fun U => (U.Kind, U.StartLine)))
        = some [(CommentKind.LineDoc, 1), (CommentKind.OrdinaryLine, 2),
            (CommentKind.LineDoc, 4)] :=
  ⟨(getRawComment_fast_path
      (declInUnit (sampleUnit FileUnitKind.SerializedAST none) (some ⟨gapRanges⟩))
      gapContext _ (sampleUnit FileUnitKind.SerializedAST none) ⟨gapRanges⟩ rfl
      (fun P hP => by cases hP) rfl rfl rfl rfl rfl (by decide) (by decide)).2 (by decide),
   fun Result After h =>
    ((getRawComment_fast_path
      (declInUnit (sampleUnit FileUnitKind.SerializedAST none) (some ⟨gapRanges⟩))
      gapContext _ (sampleUnit FileUnitKind.SerializedAST none) ⟨gapRanges⟩ rfl
      (fun P hP => by cases hP) rfl rfl rfl rfl rfl (by decide) (by decide)).1
      Result After h).2.2.1,
   by decide⟩

/-- Claim C12: for a declaration that can carry documentation, lives in a
precompiled/serialized file unit, has no usable cache entry and no
raw-doc-comment attribute, whenever the fast path does not apply (relaxed mode,
or the doc-range table is absent, empty, or holds at least one invalid entry,
whatever its other entries are), a returned result is the one of the file
unit's lazy comment map alone: a record gives the record's group and the cache
afterwards holds that group with the flag false; no record gives the empty group
and the cache is unchanged.  The lookup returns in relaxed mode, with an absent
or empty table, and whenever the classifier accepts the texts of the valid
entries that precede the first invalid one. -/
theorem getRawComment_fall_through (D : Decl) (Context : ASTContext) (SerializedOK : Bool)
    (DC : DeclContext) (Unit : FileUnit)
    (hCan : D.canHaveComment = true)
    (hMiss : ∀ P, Context.getRawComment D.ID = some P → SerializedOK = true ∧ P.2 = false)
    (hAttr : D.RawDocCommentAttr = none)
    (hDC : D.getDeclContext = some DC)
    (hUnit : DC.getModuleScopeContext.asFileUnit = some Unit)
    (hKind : Unit.Kind = FileUnitKind.SerializedAST)
    (hFall : SerializedOK = false ∨ D.getSerializedLocs = none
      ∨ ∃ Locs, D.getSerializedLocs = some Locs
          ∧ (Locs.DocRanges = [] ∨ ∃ R ∈ Locs.DocRanges, R.isValid = false)) :
    (∀ Result After, D.getRawComment Context SerializedOK = some (Result, After) →
        (∀ C, Unit.getCommentForDecl D.ID = some C →
          Result = C.Raw ∧ After = Context.setRawComment D.ID C.Raw false
            ∧ After.getRawComment D.ID = some (C.Raw, false))
        ∧ (Unit.getCommentForDecl D.ID = none →
          Result = RawComment.empty ∧ After = Context))
    ∧ ((SerializedOK = false
          ∨ ∀ Locs, D.getSerializedLocs = some Locs →
              ∀ R ∈ Locs.DocRanges.takeWhile (fun R => R.isValid),
                (getCommentKind (Context.SourceMgr.extractText R)).isSome = true) →
        ∃ Result After, D.getRawComment Context SerializedOK = some (Result, After)) := by
  have hIn := getRawComment_in_unit D Context SerializedOK DC Unit hCan hMiss hAttr hDC hUnit
  have hFrom : ∀ Result After, D.getRawCommentFromUnit Context Unit = some (Result, After) →
      (∀ C, Unit.getCommentForDecl D.ID = some C →
          Result = C.Raw ∧ After = Context.setRawComment D.ID C.Raw false
            ∧ After.getRawComment D.ID = some (C.Raw, false))
        ∧ (Unit.getCommentForDecl D.ID = none →
          Result = RawComment.empty ∧ After = Context) := by
    intro Result After hR
    constructor
    · intro C hC
      rw [(getRawCommentFromUnit_cases D Context Unit).1 C hC] at hR
      simp only [Option.some.injEq, Prod.mk.injEq] at hR
      refine ⟨hR.1.symm, hR.2.symm, ?_⟩
      rw [← hR.2]
      simp [ASTContext.getRawComment, ASTContext.setRawComment]
    · intro hC
      rw [(getRawCommentFromUnit_cases D Context Unit).2 hC] at hR
      simp only [Option.some.injEq, Prod.mk.injEq] at hR
      exact ⟨hR.1.symm, hR.2.symm⟩
  have hSome : ∃ Result After, D.getRawCommentFromUnit Context Unit = some (Result, After) := by
    unfold Decl.getRawCommentFromUnit
    cases Unit.getCommentForDecl D.ID <;> exact ⟨_, _, rfl⟩
  -- the resolver either aborts in the table loop or takes the slow path
  have hKey : (D.getRawCommentInUnit Context SerializedOK Unit = none
        ∨ D.getRawCommentInUnit Context SerializedOK Unit
            = D.getRawCommentFromUnit Context Unit)
      ∧ ((SerializedOK = false
          ∨ ∀ Locs, D.getSerializedLocs = some Locs →
              ∀ R ∈ Locs.DocRanges.takeWhile (fun R => R.isValid),
                (getCommentKind (Context.SourceMgr.extractText R)).isSome = true) →
          D.getRawCommentInUnit Context SerializedOK Unit
            = D.getRawCommentFromUnit Context Unit) := by
    unfold Decl.getRawCommentInUnit
    simp only [hKind]
    cases SerializedOK with
    | false => exact ⟨Or.inr rfl, fun _ => rfl⟩
    | true =>
      simp only [if_true]
      rcases hFall with h0 | hNone | ⟨Locs, hL, hTable⟩
      · cases h0
      · simp only [hNone]
        exact ⟨Or.inr trivial, fun _ => trivial⟩
      · simp only [hL]
        rcases hTable with hNil | hInv
        · simp only [hNil, List.isEmpty_nil, Bool.not_true, Bool.false_eq_true, if_false]
          exact ⟨Or.inr trivial, fun _ => trivial⟩
        · have hE : (!Locs.DocRanges.isEmpty) = true := by
            obtain ⟨R, hR, _⟩ := hInv
            cases hD : Locs.DocRanges with
            | nil =>
              rw [hD] at hR
              cases hR
            | cons X Rest => rfl
          simp only [hE, if_true]
          constructor
          · cases hCol : collectDocRanges Context.SourceMgr Locs.DocRanges [] with
            | none => exact Or.inl rfl
            | some SRCs =>
              have := collectDocRanges_invalid Context.SourceMgr Locs.DocRanges [] SRCs
                hInv hCol
              subst this
              exact Or.inr rfl
          · intro hOK
            rcases hOK with h0 | hText
            · cases h0
            · rw [collectDocRanges_invalid_returns Context.SourceMgr Locs.DocRanges [] hInv
                (hText Locs rfl)]
              rfl
  rw [hIn]
  constructor
  · intro Result After hR
    rcases hKey.1 with h1 | h1
    · rw [h1] at hR
      cases hR
    · rw [h1] at hR
      exact hFrom Result After hR
  · intro hOK
    rw [hKey.2 hOK]
    exact hSome

/-- Witness for claim C12: declaration 8 in a serialized file unit whose lazy
comment map holds `sampleGroup`, looked up in strict mode with a doc-range table
whose second entry is invalid: the result is the record's group. -/
theorem getRawComment_fall_through_witness :
    (∃ Result After,
        (declInUnit (sampleUnit FileUnitKind.SerializedAST (some ⟨sampleGroup⟩))
          (some ⟨[⟨⟨2000⟩, 5⟩, CharSourceRange.invalid, ⟨⟨2012⟩, 5⟩]⟩)).getRawComment
          gapContext true = some (Result, After))
    ∧ ((declInUnit (sampleUnit FileUnitKind.SerializedAST (some ⟨sampleGroup⟩))
          (some ⟨[⟨⟨2000⟩, 5⟩, CharSourceRange.invalid, ⟨⟨2012⟩, 5⟩]⟩)).getRawComment
          gapContext true).map Prod.fst = some sampleGroup :=
  ⟨(getRawComment_fall_through
      (declInUnit (sampleUnit FileUnitKind.SerializedAST (some ⟨sampleGroup⟩))
        (some ⟨[⟨⟨2000⟩, 5⟩, CharSourceRange.invalid, ⟨⟨2012⟩, 5⟩]⟩))
      gapContext true _ (sampleUnit FileUnitKind.SerializedAST (some ⟨sampleGroup⟩)) rfl
      (fun P hP => by cases hP) rfl rfl rfl rfl
      (Or.inr (Or.inr ⟨_, rfl, Or.inr ⟨CharSourceRange.invalid, by decide, by decide⟩⟩))).2
      (Or.inr (fun Locs hL => by
        cases hL
        decide)),
   by decide⟩

/-- Claim C13: the resolver leaves the cache alone on the paths that end without
a comment source: when the declaration's kind cannot carry documentation, or
when, with no usable cache entry and no attribute, the declaration has no
enclosing file-unit context or its file unit is not a precompiled/serialized
one, the result is the empty group and the context after the call, cache
included, is the context before it.  Conversely a call that changes the cache
wrote the entry of its own declaration, which either carries the attribute or
lives in a precompiled/serialized file unit. -/
theorem getRawComment_no_cache_write (D : Decl) (Context : ASTContext) (SerializedOK : Bool) :
    ((D.canHaveComment = false
        ∨ ((∀ P, Context.getRawComment D.ID = some P → SerializedOK = true ∧ P.2 = false)
            ∧ D.RawDocCommentAttr = none
            ∧ (D.getDeclContext = none
                ∨ ∃ DC, D.getDeclContext = some DC
                    ∧ (DC.getModuleScopeContext.asFileUnit = none
                        ∨ ∃ Unit, DC.getModuleScopeContext.asFileUnit = some Unit
                            ∧ Unit.Kind ≠ FileUnitKind.SerializedAST)))) →
      D.getRawComment Context SerializedOK = some (RawComment.empty, Context))
    ∧ (∀ Result After, D.getRawComment Context SerializedOK = some (Result, After) →
        After.RawComments ≠ Context.RawComments →
        (∃ F, After = Context.setRawComment D.ID Result F)
        ∧ (D.RawDocCommentAttr.isSome = true
            ∨ ∃ DC Unit, D.getDeclContext = some DC
                ∧ DC.getModuleScopeContext.asFileUnit = some Unit
                ∧ Unit.Kind = FileUnitKind.SerializedAST)) := by
  constructor
  · intro hEnd
    by_cases hCan : D.canHaveComment = true
    · rcases hEnd with h0 | ⟨hMiss, hAttr, hCtx⟩
      · rw [hCan] at h0
        cases h0
      · rw [getRawComment_of_miss D Context SerializedOK hCan hMiss]
        unfold Decl.getRawCommentUncached
        simp only [hAttr]
        rcases hCtx with hNone | ⟨DC, hDC, hNoUnit | ⟨Unit, hU, hK⟩⟩
        · simp only [hNone]
        · simp only [hDC, hNoUnit]
        · simp only [hDC, hU]
          unfold Decl.getRawCommentInUnit
          cases hKind : Unit.Kind <;> first | rfl | exact absurd hKind hK
    · unfold Decl.getRawComment
      simp [hCan]
  · intro Result After hR hChanged
    rcases getRawComment_writes D Context SerializedOK Result After hR with h1 | h1
    · rw [h1] at hChanged
      exact absurd rfl hChanged
    · exact ⟨h1.2.2.1, h1.2.2.2⟩

/-- Witness for claim C13: declaration 8 in a source file unit whose lazy comment
map does hold a record: the strict lookup returns the empty group and leaves the
context as it was. -/
theorem getRawComment_no_cache_write_witness :
    (declInUnit (sampleUnit FileUnitKind.Source (some ⟨sampleGroup⟩)) none).getRawComment
      gapContext true = some (RawComment.empty, gapContext) :=
  (getRawComment_no_cache_write
    (declInUnit (sampleUnit FileUnitKind.Source (some ⟨sampleGroup⟩)) none) gapContext true).1
    (Or.inr ⟨(fun P hP => by cases hP), rfl,
      Or.inr ⟨_, rfl, Or.inr ⟨sampleUnit FileUnitKind.Source (some ⟨sampleGroup⟩), rfl,
        by decide⟩⟩⟩)

/-! ## Range union and accessors: claims C14 to C17 -/

theorem toUnsigned_of_fits (A B : Nat) (hLe : A ≤ B) (hFit : B - A < 4294967296) :
    toUnsigned ((B : Int) - (A : Int)) = B - A := by
  unfold toUnsigned
  have h1 : ((B : Int) - (A : Int)) = ((B - A : Nat) : Int) := by omega
  rw [h1]
  omega

theorem getCharSourceRange_cons (U : SingleRawComment) (Rest : List SingleRawComment)
    (Back : SingleRawComment) (hBack : (U :: Rest).getLast? = some Back) :
    (RawComment.mk (U :: Rest)).getCharSourceRange
      = if U.Range.getStart.isInvalid then CharSourceRange.invalid
        else ⟨U.Range.getStart,
          toUnsigned ((Back.Range.getEnd.Value : Int) - (U.Range.getStart.Value : Int))⟩ := by
  unfold RawComment.getCharSourceRange
  simp only [RawComment.isEmpty, List.isEmpty_cons, Bool.false_eq_true, if_false,
    List.head?_cons, hBack]

/-- Claim C14: the range union of a comment group is the invalid, empty range
when the group is empty or its first comment's start position is invalid;
otherwise it starts at the first comment's start position and its length is the
pointer difference from that position to the last comment's end position, held
in an `unsigned`: the byte distance between the two whenever the end is not
before the start and the distance fits.  So for a group of one comment, whose
range has an `unsigned` length, the result is that comment's own range. -/
theorem getCharSourceRange_spec (RC : RawComment) :
    (RC.Comments = [] → RC.getCharSourceRange = CharSourceRange.invalid)
    ∧ (∀ Front Back, RC.Comments.head? = some Front → RC.Comments.getLast? = some Back →
        (Front.Range.getStart.isInvalid = true →
          RC.getCharSourceRange = CharSourceRange.invalid)
        ∧ (Front.Range.getStart.isInvalid = false →
          RC.getCharSourceRange.getStart = Front.Range.getStart
          ∧ RC.getCharSourceRange.ByteLength
              = toUnsigned ((Back.Range.getEnd.Value : Int)
                  - (Front.Range.getStart.Value : Int))
          ∧ (Front.Range.getStart.Value ≤ Back.Range.getEnd.Value →
              Back.Range.getEnd.Value - Front.Range.getStart.Value < 4294967296 →
              RC.getCharSourceRange.ByteLength
                = Back.Range.getEnd.Value - Front.Range.getStart.Value)))
    ∧ (∀ U, RC.Comments = [U] →
        (U.Range.isValid = true → U.Range.ByteLength < 4294967296 →
          RC.getCharSourceRange = U.Range)
        ∧ (U.Range.isValid = false → RC.getCharSourceRange = CharSourceRange.invalid))
    ∧ CharSourceRange.invalid.isValid = false
    ∧ CharSourceRange.invalid.ByteLength = 0 := by
  obtain ⟨Cs⟩ := RC
  refine ⟨?_, ?_, ?_, rfl, rfl⟩
  · intro h
    simp only at h
    subst h
    rfl
  · intro Front Back hF hB
    cases Cs with
    | nil => simp at hF
    | cons U Rest =>
      simp only [List.head?_cons, Option.some.injEq] at hF
      subst hF
      simp only at hB
      rw [getCharSourceRange_cons U Rest Back hB]
      constructor
      · intro hInv
        rw [if_pos hInv]
      · intro hVal
        rw [if_neg (by simp [hVal])]
        refine ⟨rfl, rfl, ?_⟩
        intro hLe hFit
        exact toUnsigned_of_fits _ _ hLe hFit
  · intro U hU
    simp only at hU
    subst hU
    rw [getCharSourceRange_cons U [] U rfl]
    constructor
    · intro hVal hFit
      have hInv : U.Range.getStart.isInvalid = false := by
        simpa [CharSourceRange.isValid, SourceLoc.isInvalid, CharSourceRange.getStart] using hVal
      rw [if_neg (by simp [hInv])]
      have hLen : toUnsigned ((U.Range.getEnd.Value : Int) - (U.Range.getStart.Value : Int))
          = U.Range.ByteLength := by
        rw [toUnsigned_of_fits _ _ (by simp [CharSourceRange.getEnd, CharSourceRange.getStart])
          (by simpa [CharSourceRange.getEnd, CharSourceRange.getStart] using hFit)]
        simp [CharSourceRange.getEnd, CharSourceRange.getStart]
      rw [hLen]
      rfl
    · intro hVal
      have hInv : U.Range.getStart.isInvalid = true := by
        simpa [CharSourceRange.isValid, SourceLoc.isInvalid, CharSourceRange.getStart] using hVal
      rw [if_pos hInv]

/-- Witness for claim C14: the group of the sample comment of line 2, and the
group of the two sample comments `/// a` (at 1000, 5 bytes) and `/// b` (at 1006,
5 bytes), whose union is the 11 bytes from 1000. -/
theorem getCharSourceRange_spec_witness :
    sampleGroup.getCharSourceRange = ⟨⟨1006⟩, 5⟩
    ∧ (RawComment.mk [{ Range := ⟨⟨1000⟩, 5⟩
                        RawText := ['/', '/', '/', ' ', 'a']
                        Kind := CommentKind.LineDoc
                        StartColumn := 1
                        StartLine := 1
                        EndLine := 1 },
                      { Range := ⟨⟨1006⟩, 5⟩
                        RawText := ['/', '/', '/', ' ', 'b']
                        Kind := CommentKind.LineDoc
                        StartColumn := 1
                        StartLine := 2
                        EndLine := 2 }]).getCharSourceRange = ⟨⟨1000⟩, 11⟩ :=
  ⟨((getCharSourceRange_spec sampleGroup).2.2.1 _ rfl).1 (by decide) (by decide),
   by decide⟩

theorem getGroupInfo_of_context (D : Decl) (Lookup : FileUnit → Nat → Option StringRef)
    (GroupD : GroupDecl) (MSC : ModuleScopeContext)
    (hClang : D.hasClangNode = false)
    (hG : getGroupDecl D = some GroupD)
    (hM : GroupD.getModuleScopeContext = some MSC) :
    D.getGroupInfo Lookup
      = some (match MSC.asFileUnit with
              | some Unit => Lookup Unit GroupD.ID
              | none => none) := by
  unfold Decl.getGroupInfo
  simp only [hClang, Bool.false_eq_true, if_false, hG, hM]
  cases MSC.asFileUnit <;> rfl

/-- Claim C15: for every declaration without a foreign node (it and its group
declaration having a declaration context), `getGroupName` (and likewise
`getSourceFileName`) resolves the group declaration as the extended nominal type
when the declaration's innermost enclosing type context is an extension of a
nominal type, and as the declaration itself otherwise; it then hands the query
to the group declaration's own file unit, for that group declaration.  So it
returns that file unit's lookup result when the file unit is a
precompiled/serialized one, and returns no value for a file unit of every other
kind, file units of other kinds answering no group query, and when the
module-scope context is not a file unit. -/
theorem group_queries_only_from_serialized (D : Decl) (DC : DeclContext)
    (hClang : D.hasClangNode = false)
    (hDC : D.getDeclContext = some DC) :
    (∀ ExtNominal, DC.getInnermostTypeContext
          = some (TypeContext.ExtensionDecl (some ExtNominal)) →
        getGroupDecl D = some (GroupDecl.nominal ExtNominal))
    ∧ ((∀ ExtNominal, DC.getInnermostTypeContext
          ≠ some (TypeContext.ExtensionDecl (some ExtNominal))) →
        getGroupDecl D = some (GroupDecl.self D))
    ∧ (∀ GroupD MSC, getGroupDecl D = some GroupD →
        GroupD.getModuleScopeContext = some MSC →
        (∀ Unit, MSC.asFileUnit = some Unit →
          D.getGroupName = some (Unit.getGroupNameForDecl GroupD.ID)
          ∧ D.getSourceFileName = some (Unit.getSourceFileNameForDecl GroupD.ID))
        ∧ (∀ Unit, MSC.asFileUnit = some Unit →
          Unit.Kind ≠ FileUnitKind.SerializedAST → Unit.answersOnlyIfSerialized →
          D.getGroupName = some none ∧ D.getSourceFileName = some none)
        ∧ (MSC.asFileUnit = none →
          D.getGroupName = some none ∧ D.getSourceFileName = some none)) := by
  refine ⟨?_, ?_, ?_⟩
  · intro ExtNominal hExt
    unfold getGroupDecl
    simp only [hDC, hExt]
  · intro hNot
    unfold getGroupDecl
    simp only [hDC]
  · intro GroupD MSC hG hM
    have h1 := getGroupInfo_of_context D
      (fun Unit GroupD => Unit.getGroupNameForDecl GroupD) GroupD MSC hClang hG hM
    have h2 := getGroupInfo_of_context D
      (fun Unit GroupD => Unit.getSourceFileNameForDecl GroupD) GroupD MSC hClang hG hM
    refine ⟨?_, ?_, ?_⟩
    · intro Unit hU
      rw [hU] at h1 h2
      exact ⟨h1, h2⟩
    · intro Unit hU hKind hOnly
      rw [hU] at h1 h2
      have hAns := hOnly hKind GroupD.ID
      simp only [hAns.1] at h1
      simp only [hAns.2.1] at h2
      exact ⟨h1, h2⟩
    · intro hU
      rw [hU] at h1 h2
      exact ⟨h1, h2⟩

/-- Witness for claim C15: declaration 9, a member of an extension of the nominal
type 10, the extension living in a source file unit and the nominal type in a
serialized one: the group name is the one the nominal type's file unit answers
for declaration 10.  Declaration 8 of a source file unit gets no group name. -/
theorem group_queries_only_from_serialized_witness :
    getGroupDecl (declInExtension (nominalUnit FileUnitKind.Source)
        (nominalInUnit (nominalUnit FileUnitKind.SerializedAST)))
      = some (GroupDecl.nominal (nominalInUnit (nominalUnit FileUnitKind.SerializedAST)))
    ∧ (declInExtension (nominalUnit FileUnitKind.Source)
        (nominalInUnit (nominalUnit FileUnitKind.SerializedAST))).getGroupName
      = some (some ['N'])
    ∧ (declInUnit (unitOfKind FileUnitKind.Source) none).getGroupName = some none :=
  ⟨(group_queries_only_from_serialized
      (declInExtension (nominalUnit FileUnitKind.Source)
        (nominalInUnit (nominalUnit FileUnitKind.SerializedAST))) _ rfl rfl).1 _ rfl,
   (((group_queries_only_from_serialized
      (declInExtension (nominalUnit FileUnitKind.Source)
        (nominalInUnit (nominalUnit FileUnitKind.SerializedAST))) _ rfl rfl).2.2
      (GroupDecl.nominal (nominalInUnit (nominalUnit FileUnitKind.SerializedAST)))
      (ModuleScopeContext.fileUnit (nominalUnit FileUnitKind.SerializedAST)) rfl rfl).1
      (nominalUnit FileUnitKind.SerializedAST) rfl).1,
   ((((group_queries_only_from_serialized
      (declInUnit (unitOfKind FileUnitKind.Source) none) _ rfl rfl).2.2
      (GroupDecl.self (declInUnit (unitOfKind FileUnitKind.Source) none))
      (ModuleScopeContext.fileUnit (unitOfKind FileUnitKind.Source)) rfl rfl).2.1
      (unitOfKind FileUnitKind.Source) rfl (by decide)
      (fun _ _ => ⟨rfl, rfl, rfl⟩))).1⟩

/-- Claim C16: for every declaration with a foreign (Clang) node, `getGroupName`,
`getSourceFileName` and `getSourceOrder` all return `None`, whatever the kind of
its file unit and whatever that file unit's lookups answer, and whether or not
it has a declaration context at all. -/
theorem foreign_decl_queries_absent (D : Decl) (hClang : D.hasClangNode = true) :
    D.getGroupName = some none
    ∧ D.getSourceFileName = some none
    ∧ D.getSourceOrder = some none := by
  refine ⟨?_, ?_, ?_⟩
  · simp [Decl.getGroupName, Decl.getGroupInfo, hClang]
  · simp [Decl.getSourceFileName, Decl.getGroupInfo, hClang]
  · simp [Decl.getSourceOrder, hClang]

/-- Witness for claim C16: declaration 11 with a foreign node, in a serialized
file unit whose lookups answer for every declaration; the same declaration
without the foreign node gets those answers. -/
theorem foreign_decl_queries_absent_witness :
    ((clangDeclInUnit (sampleUnit FileUnitKind.SerializedAST none)).getGroupName = some none
      ∧ (clangDeclInUnit (sampleUnit FileUnitKind.SerializedAST none)).getSourceFileName
          = some none
      ∧ (clangDeclInUnit (sampleUnit FileUnitKind.SerializedAST none)).getSourceOrder
          = some none)
    ∧ (declInUnit (sampleUnit FileUnitKind.SerializedAST none) none).getSourceOrder
        = some (some 3) :=
  ⟨foreign_decl_queries_absent (clangDeclInUnit (sampleUnit FileUnitKind.SerializedAST none))
      rfl,
   by decide⟩

/-- Claim C17: for every context, the range scanner applied to an invalid
character range returns the empty comment group; it does not fail, and neither
the tokenizer nor the merger takes part: the result is the same in every
context, also in one whose tokenizer makes every scan abort. -/
theorem toRawComment_invalid_range (Context : ASTContext) (Range : CharSourceRange)
    (hInvalid : Range.isInvalid = true) :
    toRawComment Context Range = some RawComment.empty
    ∧ (toRawComment Context Range).map RawComment.isEmpty = some true := by
  have h : toRawComment Context Range = some RawComment.empty := by
    unfold toRawComment
    simp [hInvalid]
  exact ⟨h, by rw [h]; rfl⟩

/-- Witness for claim C17: in the context whose tokenizer returns a token that is
not a comment, the scan of a valid range aborts, the scan of the invalid range
returns the empty group. -/
theorem toRawComment_invalid_range_witness :
    toRawComment otherTokenContext CharSourceRange.invalid = some RawComment.empty
    ∧ toRawComment otherTokenContext ⟨⟨2000⟩, 5⟩ = none :=
  ⟨(toRawComment_invalid_range otherTokenContext CharSourceRange.invalid rfl).1, by decide⟩

/-! ## Invariants of the merger and of the cache: claims C18 to C20 -/

theorem isAdjacentDocRun_chain (B : List SingleRawComment) :
    isAdjacentDocRun B = true ↔
      (∀ U ∈ B, U.isOrdinary = false)
        ∧ List.Chain' (fun Prev Next => Next.StartLine ≤ Prev.EndLine + 1) B := by
  induction B with
  | nil => simp [isAdjacentDocRun]
  | cons P Rest ih =>
    cases Rest with
    | nil => simp [isAdjacentDocRun]
    | cons N Rest2 =>
      simp only [isAdjacentDocRun, Bool.and_eq_true, Bool.not_eq_true', decide_eq_true_eq,
        ih, List.chain'_cons, List.mem_cons, forall_eq_or_imp]
      tauto

theorem isAdjacentDocRun_iff (B : List SingleRawComment) :
    isAdjacentDocRun B = true ↔ MergerInvariant B := by
  unfold MergerInvariant
  induction B with
  | nil => simp [isAdjacentDocRun]
  | cons P Rest ih =>
    cases Rest with
    | nil => simp [isAdjacentDocRun]
    | cons N Rest2 =>
      simp only [isAdjacentDocRun, Bool.and_eq_true, Bool.not_eq_true', decide_eq_true_eq,
        ih, List.tail_cons, List.zip_cons_cons, List.mem_cons, forall_eq_or_imp]
      tauto

theorem toRawComment_loop_feed (SourceMgr : SourceManager) (Toks : List Token)
    (B Out : List SingleRawComment)
    (h : toRawComment.loop SourceMgr Toks B = some Out) :
    ∃ Pre Rest Units, Toks = Pre ++ Rest
      ∧ List.Forall₂ (fun T U => T.Kind = tok.comment
          ∧ SingleRawComment.ofRange T.Range SourceMgr = some U) Pre Units
      ∧ Out = feedComments B Units := by
  induction Toks generalizing B with
  | nil =>
    simp only [toRawComment.loop, Option.some.injEq] at h
    exact ⟨[], [], [], rfl, List.Forall₂.nil, h.symm⟩
  | cons T Rest ih =>
    unfold toRawComment.loop at h
    by_cases hEof : T.Kind = tok.eof
    · simp only [hEof, if_true, Option.some.injEq] at h
      exact ⟨[], T :: Rest, [], rfl, List.Forall₂.nil, h.symm⟩
    · by_cases hCom : T.Kind = tok.comment
      · simp only [hCom, ne_eq, not_true_eq_false, if_false] at h
        cases hU : SingleRawComment.ofRange T.Range SourceMgr with
        | none => simp [hU] at h
        | some U =>
          simp only [hU] at h
          have h2 : toRawComment.loop SourceMgr Rest (addCommentToList B U) = some Out := by
            simpa using h
          obtain ⟨Pre, Rest2, Units, hSplit, hAll, hOut⟩ := ih (addCommentToList B U) h2
          exact ⟨T :: Pre, Rest2, U :: Units, by simp [hSplit],
            List.Forall₂.cons ⟨hCom, hU⟩ hAll, hOut⟩
      · simp [hEof, hCom] at h

theorem toRawComment_feed (Context : ASTContext) (Range : CharSourceRange) (RC : RawComment)
    (h : toRawComment Context Range = some RC) :
    ∃ Units : List SingleRawComment, RC.Comments = feedComments [] Units := by
  unfold toRawComment at h
  by_cases hInv : Range.isInvalid = true
  · simp only [hInv, if_true, Option.some.injEq] at h
    exact ⟨[], by rw [← h]; rfl⟩
  · simp only [hInv] at h
    cases hL : toRawComment.loop Context.SourceMgr
        (Context.makeLexer
          (Context.SourceMgr.findBufferContainingLoc Range.getStart)
          (Context.SourceMgr.getLocOffsetInBuffer Range.getStart
            (Context.SourceMgr.findBufferContainingLoc Range.getStart))
          (Context.SourceMgr.getLocOffsetInBuffer Range.getEnd
            (Context.SourceMgr.findBufferContainingLoc Range.getStart))).Pending [] with
    | none => simp [hL] at h
    | some Out =>
      simp only [hL, Bool.false_eq_true, if_false, Option.some.injEq] at h
      obtain ⟨_, _, Units, _, _, hOut⟩ := toRawComment_loop_feed _ _ _ _ hL
      exact ⟨Units, by rw [← h]; exact hOut⟩

/-- Claim C18: the merger invariant, every comment of the buffer is a
documentation comment and every two consecutive comments `Prev`, `Next` satisfy
`Next.StartLine ≤ Prev.EndLine + 1`, holds of the empty buffer and is preserved
by every merger step on any comment, hence by every run of the merger; so the
group the range scanner returns for any range and any token sequence holds no
ordinary comment and no line gap between neighbours. -/
theorem merger_invariant :
    MergerInvariant []
    ∧ (∀ (B : List SingleRawComment) (U : SingleRawComment),
        MergerInvariant B → MergerInvariant (addCommentToList B U))
    ∧ (∀ B Units : List SingleRawComment,
        MergerInvariant B → MergerInvariant (feedComments B Units))
    ∧ (∀ (Context : ASTContext) (Range : CharSourceRange) (RC : RawComment),
        toRawComment Context Range = some RC →
        MergerInvariant RC.Comments
        ∧ (∀ U ∈ RC.Comments, U.isOrdinary = false)
        ∧ List.Chain' (fun Prev Next => Next.StartLine ≤ Prev.EndLine + 1) RC.Comments) := by
  refine ⟨(isAdjacentDocRun_iff []).mp rfl, ?_, ?_, ?_⟩
  · intro B U hB
    exact (isAdjacentDocRun_iff _).mp
      (addCommentToList_run B U ((isAdjacentDocRun_iff B).mpr hB))
  · intro B Units hB
    exact (isAdjacentDocRun_iff _).mp
      (feedComments_run B Units ((isAdjacentDocRun_iff B).mpr hB))
  · intro Context Range RC h
    obtain ⟨Units, hU⟩ := toRawComment_feed Context Range RC h
    have hRun : isAdjacentDocRun RC.Comments = true := by
      rw [hU]
      exact feedComments_run [] Units rfl
    exact ⟨(isAdjacentDocRun_iff _).mp hRun, ((isAdjacentDocRun_chain _).mp hRun).1,
      ((isAdjacentDocRun_chain _).mp hRun).2⟩

/-- Witness for claim C18: the buffer holding the documentation comments of lines
1 and 2 satisfies the invariant, and so does the buffer after the documentation
comment of line 4, or of line 3, has been offered to it; so does the group
scanned from the sample text. -/
theorem merger_invariant_witness :
    MergerInvariant (addCommentToList [docAt 1, docAt 2] (docAt 4))
    ∧ MergerInvariant (addCommentToList [docAt 1, docAt 2] (docAt 3))
    ∧ ∀ RC, toRawComment (sampleContext none) ⟨⟨1000⟩, 12⟩ = some RC →
        MergerInvariant RC.Comments :=
  ⟨merger_invariant.2.1 [docAt 1, docAt 2] (docAt 4) (by decide),
   merger_invariant.2.1 [docAt 1, docAt 2] (docAt 3) (by decide),
   fun RC h => (merger_invariant.2.2.2 (sampleContext none) ⟨⟨1000⟩, 12⟩ RC h).1⟩

/-- Claim C19: for every sequence of comments fed to the merger from an empty
buffer, the final kept group is a suffix, possibly empty, of the input with the
generated-source line markers removed: the kept comments appear in source order,
none duplicated or reordered (the group is a sublist of the input), and every
input comment after the first kept one that is not a marker is in the group.
The group the range scanner returns is such a merger result. -/
theorem merger_keeps_suffix (Units : List SingleRawComment) :
    feedComments [] Units <:+ nonMarkers Units
    ∧ (∃ Dropped, nonMarkers Units = Dropped ++ feedComments [] Units)
    ∧ List.Sublist (feedComments [] Units) Units
    ∧ (∀ (Context : ASTContext) (Range : CharSourceRange) (RC : RawComment),
        toRawComment Context Range = some RC →
        ∃ Scanned : List SingleRawComment,
          RC.Comments = feedComments [] Scanned ∧ RC.Comments <:+ nonMarkers Scanned) := by
  have hS := feedComments_suffix Units
  refine ⟨hS, ?_, ?_, ?_⟩
  · obtain ⟨Dropped, hD⟩ := hS
    exact ⟨Dropped, hD.symm⟩
  · exact List.Sublist.trans hS.sublist (List.filter_sublist _)
  · intro Context Range RC h
    obtain ⟨Scanned, hU⟩ := toRawComment_feed Context Range RC h
    exact ⟨Scanned, hU, by rw [hU]; exact feedComments_suffix Scanned⟩

/-- Witness for claim C19: documentation comments on lines 1, 3 and 4 with a line
marker before the last one: the kept group, the comment of line 4, is a suffix
of the marker-free input and a sublist of the input. -/
theorem merger_keeps_suffix_witness :
    feedComments [] [docAt 1, docAt 3, markerAt 4, docAt 4]
        <:+ nonMarkers [docAt 1, docAt 3, markerAt 4, docAt 4]
    ∧ feedComments [] [docAt 1, docAt 3, markerAt 4, docAt 4] = [docAt 4] :=
  ⟨(merger_keeps_suffix [docAt 1, docAt 3, markerAt 4, docAt 4]).1, by decide⟩

/-- Claim C20: authoritative cache entries are never changed: for every
declaration that can carry documentation and every context whose cache holds
`(C, true)` for it, every succession of resolver calls on that declaration, in
any modes, returns `C` each time and ends in the same context, so the entry is
still `(C, true)`.  And whenever a resolver call on any declaration changes the
cache entry of a key, the key is that declaration and the entry before the call
was absent or had the flag false. -/
theorem authoritative_entry_stable (D : Decl) (Context : ASTContext) (C : RawComment)
    (hCan : D.canHaveComment = true)
    (hHit : Context.getRawComment D.ID = some (C, true)) :
    (∀ Modes : List Bool,
        D.getRawCommentSeq Context Modes = some (List.replicate Modes.length C, Context))
    ∧ (∀ (Modes : List Bool) (Results : List RawComment) (Final : ASTContext),
        D.getRawCommentSeq Context Modes = some (Results, Final) →
        Final.getRawComment D.ID = some (C, true))
    ∧ (∀ (D2 : Decl) (Context2 After : ASTContext) (SerializedOK : Bool) (R : RawComment)
        (K : Nat),
        D2.getRawComment Context2 SerializedOK = some (R, After) →
        After.getRawComment K ≠ Context2.getRawComment K →
        K = D2.ID ∧ ∀ C0, Context2.getRawComment K ≠ some (C0, true)) := by
  have hCall : ∀ SerializedOK : Bool, D.getRawComment Context SerializedOK = some (C, Context) := by
    intro SerializedOK
    unfold Decl.getRawComment
    simp [hCan, hHit]
  have hSeq : ∀ Modes : List Bool,
      D.getRawCommentSeq Context Modes = some (List.replicate Modes.length C, Context) := by
    intro Modes
    induction Modes with
    | nil => rfl
    | cons S Rest ih =>
      unfold Decl.getRawCommentSeq
      rw [hCall S]
      simp only [ih]
      rfl
  refine ⟨hSeq, ?_, ?_⟩
  · intro Modes Results Final h
    rw [hSeq Modes] at h
    simp only [Option.some.injEq, Prod.mk.injEq] at h
    rw [← h.2]
    exact hHit
  · intro D2 Context2 After SerializedOK R K h hChanged
    rcases getRawComment_writes D2 Context2 SerializedOK R After h with h1 | h1
    · rw [h1] at hChanged
      exact absurd rfl hChanged
    · obtain ⟨_, hNoAuth, ⟨F, hAfter⟩, _⟩ := h1
      have hK : K = D2.ID := by
        by_contra hne
        apply hChanged
        rw [hAfter]
        simp [ASTContext.getRawComment, ASTContext.setRawComment, hne]
      subst hK
      exact ⟨rfl, hNoAuth⟩

/-- Witness for claim C20: declaration 7 with the cache entry
`(sampleGroup, true)`, resolved in strict, relaxed and strict mode in
succession. -/
theorem authoritative_entry_stable_witness :
    sampleDecl.getRawCommentSeq (sampleContext (some (sampleGroup, true))) [true, false, true]
      = some ([sampleGroup, sampleGroup, sampleGroup],
          sampleContext (some (sampleGroup, true))) :=
  (authoritative_entry_stable sampleDecl (sampleContext (some (sampleGroup, true)))
    sampleGroup rfl rfl).1 [true, false, true]

end swift
